import Mathlib

/-!
# Krypton line translator: embedding of `main.go`

Go strings are modelled as lists of Unicode code points (`Str`).  Every
delimiter the program looks for is ASCII, so byte offsets of the Go code and
list positions of the model coincide on well-formed UTF-8 text.

Operations that can panic in Go (slicing, indexing) return `Option`, and so do
the functions built from them.  The process-wide map `varExprs` is threaded
explicitly through `handleFString` and `translateLine`.

The four regular expressions of the program are written as data (`Regex`) and
run by a backtracking matcher with Go's leftmost-first, greedy semantics.

The input file is modelled by its raw lines, the texts between the newlines.
`main` reads them with a default `bufio.Scanner` and never looks at
`scanner.Err()`: `scanLines` gives the lines that `scanner.Scan()` delivers,
which stop before the first raw line of `bufio.MaxScanTokenSize` bytes or more.
`run` is the loop over delivered lines, `runInput` the loop over the raw lines
of a file.
-/

namespace Krypton

abbrev Str := List Char

/-! ## Package `strings` and slicing -/

/-- Go `unicode.IsSpace`: the white space that `strings.TrimSpace` removes. -/
def isSpace (c : Char) : Bool :=
  let n := c.toNat
  (9 ≤ n && n ≤ 13) || n == 32 || n == 0x85 || n == 0xA0 || n == 0x1680 ||
  (0x2000 ≤ n && n ≤ 0x200A) || n == 0x2028 || n == 0x2029 || n == 0x202F ||
  n == 0x205F || n == 0x3000

/-- Go `strings.TrimSpace`. -/
def trimSpace (s : Str) : Str :=
  ((s.dropWhile isSpace).reverse.dropWhile isSpace).reverse

/-- Go `strings.HasPrefix(s, p)`. -/
def hasPrefix (s p : Str) : Bool := p.isPrefixOf s

/-- Go `strings.HasSuffix(s, p)`. -/
def hasSuffix (s p : Str) : Bool := p.isSuffixOf s

/-- Go `strings.Contains(s, sub)`. -/
def contains : Str → Str → Bool
  | [], sub => sub.isPrefixOf []
  | x :: xs, sub => sub.isPrefixOf (x :: xs) || contains xs sub

/-- Loop of Go `strings.Split(s, sep)` for a non-empty `sep`: `cur` is the part
being collected; every round consumes at least one character, which the fuel
counts. -/
def splitAux (sep : Str) : Nat → Str → Str → List Str
  | 0, cur, s => [cur ++ s]
  | _ + 1, cur, [] => [cur]
  | fuel + 1, cur, x :: xs =>
    if sep.isPrefixOf (x :: xs) then
      cur :: splitAux sep fuel [] ((x :: xs).drop sep.length)
    else
      splitAux sep fuel (cur ++ [x]) xs

/-- Go `strings.Split(s, sep)` for a non-empty `sep`: the parts between the
non-overlapping occurrences of `sep`, found left to right. -/
def split (s sep : Str) : List Str := splitAux sep s.length [] s

/-- Go `strings.Replace(s, old, new, 1)`: the first occurrence only. -/
def replaceFirst : Str → Str → Str → Str
  | [], old, new => if old.isPrefixOf [] then new else []
  | x :: xs, old, new =>
    if old.isPrefixOf (x :: xs) then new ++ (x :: xs).drop old.length
    else x :: replaceFirst xs old new

/-- Go `strings.Join(elems, sep)`. -/
def join (elems : List Str) (sep : Str) : Str := sep.intercalate elems

/-- Go `strings.Repeat(s, count)` for `count ≥ 0`. -/
def repeatStr (s : Str) (count : Nat) : Str := (List.replicate count s).flatten

/-- Go slice expression `s[lo:hi]`; `none` stands for the run-time panic when
the bounds are out of range. -/
def slice (s : Str) (lo hi : Nat) : Option Str :=
  if lo ≤ hi ∧ hi ≤ s.length then some ((s.take hi).drop lo) else none

/-! ## Package `regexp`, for the patterns of this program -/

inductive Quant where
  | one
  | star
  | plus
  deriving DecidableEq, Repr

/-- One piece of a pattern: a character class, how often it repeats, and
whether it is a capture group. -/
structure Item where
  cls : Char → Bool
  q : Quant
  cap : Bool

/-- A pattern: a sequence of items, optionally anchored by `^` and `$`. -/
structure Regex where
  bol : Bool
  items : List Item
  eol : Bool

/-- Class `\w` of Go regexp: `[0-9A-Za-z_]`. -/
def isWord (c : Char) : Bool :=
  let n := c.toNat
  (48 ≤ n && n ≤ 57) || (65 ≤ n && n ≤ 90) || n == 95 || (97 ≤ n && n ≤ 122)

/-- Class `\s` of Go regexp: `[\t\n\f\r ]`. -/
def isReSpace (c : Char) : Bool :=
  let n := c.toNat
  n == 9 || n == 10 || n == 12 || n == 13 || n == 32

def lit (c : Char) : Item := ⟨fun x => x == c, Quant.one, false⟩

def lits (s : String) : List Item := s.toList.map lit

def notChar (c : Char) : Char → Bool := fun x => x != c

def star (cls : Char → Bool) : Item := ⟨cls, Quant.star, false⟩

def plus (cls : Char → Bool) : Item := ⟨cls, Quant.plus, false⟩

def group (it : Item) : Item := ⟨it.cls, it.q, true⟩

/-- Greedy repetition: consume as many characters of the class as possible,
giving one back at a time while the continuation `k` fails. Returns the text
consumed by the repetition and the result of the continuation. -/
def starLoop (cls : Char → Bool) (k : Str → Option (List Str × Str)) :
    Str → Option (Str × List Str × Str)
  | [] => (k []).map fun r => ([], r)
  | x :: xs =>
    if cls x then
      match starLoop cls k xs with
      | some (sp, r) => some (x :: sp, r)
      | none => (k (x :: xs)).map fun r => ([], r)
    else (k (x :: xs)).map fun r => ([], r)

/-- Match the items at the start of `s`. Returns the text consumed by each
item and the text left after the match. With `eot` the match must end at the
end of the text. -/
def matchItems (eot : Bool) : List Item → Str → Option (List Str × Str)
  | [], s => if eot && !s.isEmpty then none else some ([], s)
  | it :: rest, s =>
    match it.q with
    | Quant.one =>
      match s with
      | x :: xs =>
        if it.cls x then (matchItems eot rest xs).map fun r => ([x] :: r.1, r.2)
        else none
      | [] => none
    | Quant.star =>
      (starLoop it.cls (matchItems eot rest) s).map fun r => (r.1 :: r.2.1, r.2.2)
    | Quant.plus =>
      match s with
      | x :: xs =>
        if it.cls x then
          (starLoop it.cls (matchItems eot rest) xs).map
            fun r => ((x :: r.1) :: r.2.1, r.2.2)
        else none
      | [] => none

/-- Leftmost match: try every start position from the left (only the first
one under `^`). Returns the text before the match, the text of each item and
the text after the match. -/
def search (re : Regex) : Str → Str → Option (Str × List Str × Str)
  | pre, [] => (matchItems re.eol re.items []).map fun r => (pre, r)
  | pre, x :: xs =>
    match matchItems re.eol re.items (x :: xs) with
    | some r => some (pre, r)
    | none => if re.bol then none else search re (pre ++ [x]) xs

/-- The texts of the capture groups, in order. -/
def captures : List Item → List Str → List Str
  | it :: its, sp :: sps => if it.cap then sp :: captures its sps else captures its sps
  | _, _ => []

/-- Go `(*Regexp).FindStringSubmatch`: the whole match followed by the
groups, or the empty (nil) slice when there is no match. -/
def findStringSubmatch (re : Regex) (s : Str) : List Str :=
  match search re [] s with
  | some (_, sps, _) => sps.flatten :: captures re.items sps
  | none => []

/-- Loop of Go `(*Regexp).ReplaceAllStringFunc` for a pattern that matches no
empty string: copy the text before the leftmost match, replace the match, go on
after it. The replacement function may update a state `σ` and may panic. -/
def replaceAllAux {σ : Type} (re : Regex) (repl : σ → Str → Option (Str × σ)) :
    Nat → σ → Str → Option (Str × σ)
  | 0, _, _ => none
  | fuel + 1, st, src =>
    match search re [] src with
    | none => some (src, st)
    | some (pre, sps, rest) =>
      match repl st sps.flatten with
      | none => none
      | some (new, st1) =>
        match replaceAllAux re repl fuel st1 rest with
        | none => none
        | some (out, st2) => some (pre ++ new ++ out, st2)

/-- Go `(*Regexp).ReplaceAllStringFunc`; a match consumes at least one
character, so `src.length + 1` rounds are enough. -/
def replaceAllStringFunc {σ : Type} (re : Regex) (src : Str)
    (repl : σ → Str → Option (Str × σ)) (st : σ) : Option (Str × σ) :=
  replaceAllAux re repl (src.length + 1) st src

/-! ## The program -/

/-- Pattern `{([^}]+)}` of `convertFString`. -/
def placeholderRe : Regex :=
  ⟨false, lits "\x7b" ++ [group (plus (notChar '}'))] ++ lits "\x7d", false⟩

/-- Pattern `(\w+)\s*=\s*f\"{(\w+)}\"` of `handleFString`. -/
def assignRe : Regex :=
  ⟨false, [group (plus isWord), star isReSpace] ++ lits "=" ++ [star isReSpace] ++
    lits "f\"\x7b" ++ [group (plus isWord)] ++ lits "\x7d\"", false⟩

/-- Pattern `f\"([^\"]*)\"` of `handleFString`. -/
def fStrRe : Regex :=
  ⟨false, lits "f\"" ++ [group (star (notChar '"'))] ++ lits "\"", false⟩

/-- Pattern `^println!\((\w+)\)$` of `translateLine`. -/
def printVarRe : Regex :=
  ⟨true, lits "println!(" ++ [group (plus isWord)] ++ lits ")", true⟩

/-- The map `varExprs`. -/
abbrev VarExprs := Str → Option Str

def VarExprs.empty : VarExprs := fun _ => none

/-- Go `varExprs[k] = v`. -/
def VarExprs.set (m : VarExprs) (k v : Str) : VarExprs :=
  fun x => if x = k then some v else m x

def indent (level : Nat) : Str := repeatStr "    ".toList level

def isAssignment (line : Str) : Str × Str × Bool :=
  if contains line " be ".toList then
    match split line " be ".toList with
    | [name, value] => (name, value, true)
    | _ => ([], [], false)
  else ([], [], false)

/-- The closure passed to `ReplaceAllStringFunc` in `convertFString`; the
state is the slice `vars`. -/
def convertRepl (vars : List Str) (m : Str) : Option (Str × List Str) :=
  match slice m 1 (m.length - 1) with
  | none => none
  | some varName => some ("\x7b\x7d".toList, vars ++ [varName])

def convertFString (content : Str) : Option (Str × List Str) :=
  replaceAllStringFunc placeholderRe content convertRepl []

def ifNotEmpty (s : Str) : Str :=
  if s = [] then [] else ", ".toList ++ s

def handleFString (varExprs : VarExprs) (line : Str) : Option (Str × VarExprs) :=
  let ms := findStringSubmatch assignRe line
  if ms.length = 3 then
    match ms with
    | [_, varName, expr] =>
      some ("let ".toList ++ varName ++ " = format!(\"\x7b\x7d\", ".toList ++ expr ++ ");".toList,
        varExprs.set varName expr)
    | _ => none
  else
    let ms := findStringSubmatch fStrRe line
    if ms.length < 2 then some (line, varExprs)
    else
      match ms with
      | m0 :: content :: _ =>
        match convertFString content with
        | none => none
        | some (formatted, vars) =>
          let formatCall := "format!(\"".toList ++ formatted ++ "\"".toList ++
            ifNotEmpty (join vars ", ".toList) ++ ")".toList
          if hasPrefix line "println!(".toList then
            some ("println!(\"\x7b\x7d\", ".toList ++ formatCall ++ ");".toList, varExprs)
          else some (replaceFirst line m0 formatCall, varExprs)
      | _ => none

def translateLine (varExprs : VarExprs) (line : Str) : Option (Str × VarExprs) :=
  let line := trimSpace line
  let ms := findStringSubmatch printVarRe line
  if ms.length = 2 then
    match ms with
    | [_, varName] => some ("println!(\"\x7b\x7d\", ".toList ++ varName ++ ");".toList, varExprs)
    | _ => none
  else
    let r :=
      if contains line "f\"".toList || hasPrefix line "print(f".toList then
        handleFString varExprs line
      else some (line, varExprs)
    match r with
    | none => none
    | some (line, varExprs) =>
      match isAssignment line with
      | (name, value, true) =>
        some ("let ".toList ++ name ++ " = ".toList ++ value ++ ";".toList, varExprs)
      | (_, _, false) =>
        if hasSuffix line "()".toList then some (line ++ ";".toList, varExprs)
        else some (line, varExprs)

/-- The variables of `main` that the loop over the input lines updates. -/
structure Driver where
  rustCode : List Str
  inFunction : Bool
  varExprs : VarExprs

/-- The test of the first `case` of the loop of `main`: the trimmed line ends
with `{` and its first blank-separated token ends with `()`. The token is
`strings.Split(trimmed, " ")[0]`, looked at only when the first test holds. -/
def functionOpen (trimmed : Str) : Option Bool :=
  if hasSuffix trimmed "\x7b".toList then
    match split trimmed " ".toList with
    | first :: _ => some (hasSuffix first "()".toList)
    | [] => none
  else some false

/-- One round of the `for scanner.Scan()` loop of `main`. -/
def step (st : Driver) (line : Str) : Option Driver :=
  let trimmed := trimSpace line
  match functionOpen trimmed with
  | none => none
  | some true =>
    match split trimmed "(".toList with
    | funcName :: _ =>
      some ⟨st.rustCode ++ ["fn ".toList ++ funcName ++ "() \x7b".toList], true, st.varExprs⟩
    | [] => none
  | some false =>
    if st.inFunction && trimmed == "\x7d".toList then
      some ⟨st.rustCode ++ ["\x7d".toList], false, st.varExprs⟩
    else if st.inFunction then
      match translateLine st.varExprs trimmed with
      | none => none
      | some (out, tbl) => some ⟨st.rustCode ++ [indent 1 ++ out], st.inFunction, tbl⟩
    else
      match translateLine st.varExprs trimmed with
      | none => none
      | some (out, tbl) => some ⟨st.rustCode ++ [out], st.inFunction, tbl⟩

/-- The rounds of the loop of `main` for the lines that `scanner.Scan()`
delivers, in order. -/
def run : Driver → List Str → Option Driver
  | st, [] => some st
  | st, line :: lines =>
    match step st line with
    | none => none
    | some st1 => run st1 lines

/-- The number of bytes of a text in UTF-8, Go `len(s)`. -/
def byteLen : Str → Nat
  | [] => 0
  | c :: cs => c.utf8Size + byteLen cs

/-- Go `bufio.MaxScanTokenSize`, the buffer limit of a default `bufio.Scanner`. -/
def maxScanTokenSize : Nat := 64 * 1024

/-- Function `dropCR` of `bufio.ScanLines`: one carriage return at the end of
the line is not part of the token. -/
def dropCR (s : Str) : Str :=
  if s.getLast? = some '\r' then s.dropLast else s

/-- The lines that `scanner.Scan()` and `scanner.Text()` deliver for the raw
lines of the input: the text before each newline, and a last non-empty text
without one. A raw line and its newline must fit the buffer of
`maxScanTokenSize` bytes: at the first raw line of `maxScanTokenSize` bytes or
more `Scan` returns false with `ErrTooLong`, and the loop `for scanner.Scan()`
ends there, since `main` never reads `scanner.Err()`. -/
def scanLines : List Str → List Str
  | [] => []
  | raw :: rest =>
    if byteLen raw < maxScanTokenSize then dropCR raw :: scanLines rest else []

/-- The loop `for scanner.Scan()` of `main` on the raw lines of the input
file. -/
def runInput (st : Driver) (rawLines : List Str) : Option Driver :=
  run st (scanLines rawLines)

/-! ## Definitions used to state the properties -/

/-- What an item may consume. -/
def spanOk (it : Item) (sp : Str) : Prop :=
  (∀ c ∈ sp, it.cls c = true) ∧ (it.q = Quant.one → sp.length = 1) ∧
    (it.q = Quant.plus → sp ≠ [])

/-- The line contains an interpolated literal: an `f"` followed later by a
closing `"`. -/
def hasInterpolatedLiteral (t : Str) : Prop :=
  ∃ p c q, t = p ++ "f\"".toList ++ c ++ "\"".toList ++ q

/-- The line has the form `println!(<word>)`. -/
def isPrintVar (t : Str) : Prop :=
  ∃ w, w ≠ [] ∧ (∀ c ∈ w, isWord c = true) ∧ t = "println!(".toList ++ w ++ ")".toList

/-- Lines 89-97 of `translateLine`: the assignment rule, the bare-call rule
and the pass-through. -/
def lastRules (line : Str) : Str :=
  match isAssignment line with
  | (name, value, true) => "let ".toList ++ name ++ " = ".toList ++ value ++ ";".toList
  | (_, _, false) => if hasSuffix line "()".toList then line ++ ";".toList else line

/-- One-pass reading of a template. Outside a brace (`none`) characters are
copied and `{` opens a brace. Inside a brace (`some buf`, with `buf` the text
read since the `{`) the first `}` closes it: a non-empty `buf` is a placeholder
name and `{}` is written for it, an empty one leaves the `{}` of the input in
place. A brace still open at the end is copied as it was. -/
def scan : Option Str → Str → Str × List Str
  | none, [] => ([], [])
  | none, x :: xs =>
    if x = '{' then scan (some []) xs
    else ((x :: (scan none xs).1), (scan none xs).2)
  | some buf, [] => ('{' :: buf, [])
  | some buf, x :: xs =>
    if x = '}' then
      ('{' :: '}' :: (scan none xs).1,
        if buf = [] then (scan none xs).2 else buf :: (scan none xs).2)
    else scan (some (buf ++ [x])) xs

/-- The template `s0{n1}s1...{nk}sk`, given `s0` and the pairs `(ni, si)`. -/
def template (s0 : Str) : List (Str × Str) → Str
  | [] => s0
  | seg :: rest => s0 ++ "\x7b".toList ++ seg.1 ++ "\x7d".toList ++ template seg.2 rest

/-- The positional template `s0{}s1...{}sk`. -/
def positional (s0 : Str) : List (Str × Str) → Str
  | [] => s0
  | seg :: rest => s0 ++ "\x7b\x7d".toList ++ positional seg.2 rest

/-- Counting the placeholders of a template from left to right, without
overlap. Outside a brace (`none`) a `{` opens one; inside (`some k`, with `k`
characters read since the `{`) the first `}` closes it, and it counts as a
placeholder when there is at least one character between the braces. -/
def countPlaceholders : Option Nat → Str → Nat
  | none, [] => 0
  | none, x :: xs => if x = '{' then countPlaceholders (some 0) xs else countPlaceholders none xs
  | some _, [] => 0
  | some k, x :: xs =>
    if x = '}' then (if k = 0 then 0 else 1) + countPlaceholders none xs
    else countPlaceholders (some (k + 1)) xs

/-- The number N of placeholders of a template: a `{`, one or more characters
other than `}`, and a `}`. -/
def placeholderCount (s : Str) : Nat := countPlaceholders none s

/-- The number of occurrences of the empty placeholder marker `{}`. -/
def countMarkers : Str → Nat
  | [] => 0
  | x :: xs => (if "\x7b\x7d".toList.isPrefixOf (x :: xs) then 1 else 0) + countMarkers xs

/-- The lines of a list translated one after the other, the binding table
handed from each call of `translateLine` to the next. -/
def translateLines : VarExprs → List Str → Option (List Str × VarExprs)
  | tbl, [] => some ([], tbl)
  | tbl, l :: ls =>
    match translateLine tbl l with
    | none => none
    | some (o, t1) =>
      match translateLines t1 ls with
      | none => none
      | some (os, t2) => some (o :: os, t2)

/-- Lines 85-87 of `translateLine`: the call of `handleFString`, made when the
line contains `f"` or starts with `print(f`. -/
def fStringStep (tbl : VarExprs) (t : Str) : Option (Str × VarExprs) :=
  if contains t "f\"".toList || hasPrefix t "print(f".toList then handleFString tbl t
  else some (t, tbl)

/-- The text `t` holds the single-placeholder assignment form after `p`: a
word `a`, optional blanks, `=`, optional blanks, and `f"{b}"` with a word `b`;
`r` is the text after it. -/
def assignFormAt (t p a w1 w2 b r : Str) : Prop :=
  a ≠ [] ∧ (∀ c ∈ a, isWord c = true) ∧ b ≠ [] ∧ (∀ c ∈ b, isWord c = true) ∧
    (∀ c ∈ w1, isReSpace c = true) ∧ (∀ c ∈ w2, isReSpace c = true) ∧
    t = p ++ a ++ w1 ++ "=".toList ++ w2 ++ "f\"\x7b".toList ++ b ++ "\x7d\"".toList ++ r

/-- The text holds the single-placeholder assignment form somewhere. -/
def hasAssignForm (t : Str) : Prop := ∃ p a w1 w2 b r, assignFormAt t p a w1 w2 b r

/-- The format expression built from a positional template and the names:
`format!("T")` without names, `format!("T", n1, ..., nk)` with names. -/
def formatExpression (template : Str) (vars : List Str) : Str :=
  "format!(\"".toList ++ template ++ "\"".toList ++
    (if vars = [] then [] else ", ".toList ++ join vars ", ".toList) ++ ")".toList

/-- The number of positions of `s` at which the text `sub` occurs, overlapping
occurrences included. -/
def countPositions : Str → Str → Nat
  | [], sub => if sub.isPrefixOf [] then 1 else 0
  | x :: xs, sub => (if sub.isPrefixOf (x :: xs) then 1 else 0) + countPositions xs sub

/-- Some line of the sequence is a function-open line and no later line is,
once trimmed, exactly `}`. -/
def openNotClosed (lines : List Str) : Prop :=
  ∃ pre l post, lines = pre ++ l :: post ∧ functionOpen (trimSpace l) = some true ∧
    ∀ m ∈ post, trimSpace m ≠ "\x7d".toList

/-! ## Facts about the string operations -/

theorem contains_iff (s sub : Str) : contains s sub = true ↔ sub <:+: s := by
  induction s with
  | nil => simp [contains, List.isPrefixOf_iff_prefix]
  | cons x xs ih =>
    simp only [contains, Bool.or_eq_true, List.isPrefixOf_iff_prefix, ih, List.infix_cons_iff]

theorem contains_eq_false_iff (s sub : Str) : contains s sub = false ↔ ¬ sub <:+: s := by
  rw [← contains_iff]; simp

theorem hasSuffix_iff (s p : Str) : hasSuffix s p = true ↔ p <:+ s := by
  simp [hasSuffix, List.isSuffixOf_iff_suffix]

theorem hasPrefix_iff (s p : Str) : hasPrefix s p = true ↔ p <+: s := by
  simp [hasPrefix, List.isPrefixOf_iff_prefix]

theorem rdropWhile_append_of_pos (p : Char → Bool) (l post : Str)
    (h : ∀ c ∈ post, p c = true) : (l ++ post).rdropWhile p = l.rdropWhile p := by
  unfold List.rdropWhile
  rw [List.reverse_append, List.dropWhile_append_of_pos]
  intro a ha
  exact h a (List.mem_reverse.mp ha)

theorem trimSpace_head (s : Str) (c : Char) (h : (trimSpace s).head? = some c) :
    isSpace c = false := by
  have hpre : trimSpace s <+: s.dropWhile isSpace := List.rdropWhile_prefix isSpace _
  obtain ⟨u, hu⟩ := hpre
  have h2 := List.head?_dropWhile_not isSpace s
  rw [← hu] at h2
  cases ht : trimSpace s with
  | nil => rw [ht] at h; simp at h
  | cons x xs =>
    rw [ht] at h h2
    simp only [List.cons_append, List.head?_cons, Option.some.injEq] at h h2
    rw [← h]; exact h2

theorem trimSpace_last (s : Str) (c : Char) (h : (trimSpace s).getLast? = some c) :
    isSpace c = false := by
  have hne : (s.dropWhile isSpace).rdropWhile isSpace ≠ [] := by
    intro h0
    have : trimSpace s = [] := h0
    rw [this] at h; simp at h
  have h2 := List.rdropWhile_last_not isSpace (s.dropWhile isSpace) hne
  have h3 : (trimSpace s).getLast? = some (((s.dropWhile isSpace).rdropWhile isSpace).getLast hne) :=
    List.getLast?_eq_getLast _ hne
  rw [h3] at h
  simp only [Option.some.injEq] at h
  rw [← h]
  simpa using h2

/-- Blanks around a text that neither starts nor ends with a blank are
removed, and nothing else. -/
theorem trimSpace_pad (pre mid post : Str) (hpre : ∀ c ∈ pre, isSpace c = true)
    (hpost : ∀ c ∈ post, isSpace c = true)
    (hh : ∀ c, mid.head? = some c → isSpace c = false)
    (hl : ∀ c, mid.getLast? = some c → isSpace c = false) :
    trimSpace (pre ++ mid ++ post) = mid := by
  unfold trimSpace
  change ((pre ++ mid ++ post).dropWhile isSpace).rdropWhile isSpace = mid
  rw [List.append_assoc, List.dropWhile_append_of_pos hpre]
  cases mid with
  | nil =>
    simp only [List.nil_append]
    have : post.dropWhile isSpace = [] := List.dropWhile_eq_nil_iff.mpr hpost
    rw [this]; rfl
  | cons x xs =>
    have hx : isSpace x = false := hh x rfl
    rw [List.cons_append, List.dropWhile_cons_of_neg (by simp [hx]), ← List.cons_append,
      rdropWhile_append_of_pos _ _ _ hpost, List.rdropWhile_eq_self_iff]
    intro hne
    have := hl _ (List.getLast?_eq_getLast _ hne)
    simp [this]

theorem trimSpace_idem (s : Str) : trimSpace (trimSpace s) = trimSpace s := by
  have := trimSpace_pad [] (trimSpace s) [] (by simp) (by simp) (trimSpace_head s)
    (trimSpace_last s)
  simpa using this

theorem splitAux_ne_nil (sep : Str) : ∀ (fuel : Nat) (cur s : Str), splitAux sep fuel cur s ≠ [] := by
  intro fuel
  induction fuel with
  | zero => intro cur s; simp [splitAux]
  | succ n ih =>
    intro cur s
    cases s with
    | nil => simp [splitAux]
    | cons x xs =>
      simp only [splitAux]
      split
      · simp
      · exact ih _ _

theorem intercalate_cons_ne_nil (sep a : Str) (l : List Str) (h : l ≠ []) :
    sep.intercalate (a :: l) = a ++ sep ++ sep.intercalate l := by
  cases l with
  | nil => exact absurd rfl h
  | cons b l => simp [List.intercalate, List.intersperse]

/-- Joining the parts of `Split` with the separator gives the text back. -/
theorem intercalate_splitAux (sep : Str) : ∀ (fuel : Nat) (cur s : Str),
    sep.intercalate (splitAux sep fuel cur s) = cur ++ s := by
  intro fuel
  induction fuel with
  | zero => intro cur s; simp [splitAux, List.intercalate]
  | succ n ih =>
    intro cur s
    cases s with
    | nil => simp [splitAux, List.intercalate]
    | cons x xs =>
      simp only [splitAux]
      split
      · rename_i hp
        rw [intercalate_cons_ne_nil _ _ _ (splitAux_ne_nil _ _ _ _), ih]
        rw [List.isPrefixOf_iff_prefix] at hp
        obtain ⟨u, hu⟩ := hp
        rw [← hu]
        simp
      · rw [ih]; simp

theorem splitAux_of_no_occurrence (sep : Str) : ∀ (fuel : Nat) (cur s : Str),
    ¬ sep <:+: s → splitAux sep fuel cur s = [cur ++ s] := by
  intro fuel
  induction fuel with
  | zero => intro cur s _; simp [splitAux]
  | succ n ih =>
    intro cur s h
    cases s with
    | nil => simp [splitAux]
    | cons x xs =>
      rw [List.infix_cons_iff, not_or] at h
      have hp : sep.isPrefixOf (x :: xs) = false := by
        rw [Bool.eq_false_iff]
        intro hp
        exact h.1 (List.isPrefixOf_iff_prefix.mp hp)
      simp only [splitAux, hp, Bool.false_eq_true, if_false]
      rw [ih _ _ h.2]
      simp

/-- If `Split` gives two parts, the separator occurs and stands between them. -/
theorem split_two (s sep n e : Str) (h : split s sep = [n, e]) :
    contains s sep = true ∧ s = n ++ sep ++ e := by
  constructor
  · by_contra hc
    rw [contains_iff] at hc
    have := splitAux_of_no_occurrence sep s.length [] s hc
    unfold split at h
    rw [this] at h
    simp at h
  · have := intercalate_splitAux sep s.length [] s
    unfold split at h
    rw [h] at this
    simpa [List.intercalate, List.intersperse] using this.symm

/-! ## Facts about the matcher -/

theorem starLoop_sound (cls : Char → Bool) (k : Str → Option (List Str × Str)) :
    ∀ (s sp : Str) (res : List Str × Str), starLoop cls k s = some (sp, res) →
      ∃ u, s = sp ++ u ∧ (∀ c ∈ sp, cls c = true) ∧ k u = some res := by
  intro s
  induction s with
  | nil =>
    intro sp res h
    simp only [starLoop, Option.map_eq_some'] at h
    obtain ⟨a, ha, h⟩ := h
    simp only [Prod.mk.injEq] at h
    obtain ⟨rfl, rfl⟩ := h
    exact ⟨[], rfl, by simp, ha⟩
  | cons x xs ih =>
    intro sp res h
    simp only [starLoop] at h
    by_cases hx : cls x = true
    · simp only [hx, if_true] at h
      cases hrec : starLoop cls k xs with
      | some v =>
        obtain ⟨sp1, res1⟩ := v
        simp only [hrec, Option.some.injEq, Prod.mk.injEq] at h
        obtain ⟨rfl, rfl⟩ := h
        obtain ⟨u, hu, hall, hk⟩ := ih sp1 res1 hrec
        refine ⟨u, by simp [hu], ?_, hk⟩
        intro c hc
        rcases List.mem_cons.mp hc with rfl | hc
        · exact hx
        · exact hall c hc
      | none =>
        simp only [hrec, Option.map_eq_some'] at h
        obtain ⟨a, ha, h⟩ := h
        simp only [Prod.mk.injEq] at h
        obtain ⟨rfl, rfl⟩ := h
        exact ⟨x :: xs, rfl, by simp, ha⟩
    · simp only [hx, Bool.false_eq_true, if_false, Option.map_eq_some'] at h
      obtain ⟨a, ha, h⟩ := h
      simp only [Prod.mk.injEq] at h
      obtain ⟨rfl, rfl⟩ := h
      exact ⟨x :: xs, rfl, by simp, ha⟩

theorem matchItems_sound (eot : Bool) :
    ∀ (items : List Item) (s : Str) (sps : List Str) (r : Str),
      matchItems eot items s = some (sps, r) →
        s = sps.flatten ++ r ∧ List.Forall₂ spanOk items sps ∧ (eot = true → r = []) := by
  intro items
  induction items with
  | nil =>
    intro s sps r h
    simp only [matchItems] at h
    split at h
    · exact absurd h (by simp)
    · rename_i hcond
      simp only [Option.some.injEq, Prod.mk.injEq] at h
      obtain ⟨rfl, rfl⟩ := h
      refine ⟨by simp, List.Forall₂.nil, ?_⟩
      intro he
      cases s with
      | nil => rfl
      | cons a l => simp [he] at hcond
  | cons it rest ih =>
    intro s sps r h
    simp only [matchItems] at h
    cases hq : it.q with
    | one =>
      simp only [hq] at h
      cases s with
      | nil => simp at h
      | cons x xs =>
        simp only at h
        by_cases hx : it.cls x = true
        · simp only [hx, if_true, Option.map_eq_some'] at h
          obtain ⟨⟨sps1, r1⟩, hm, h⟩ := h
          simp only [Prod.mk.injEq] at h
          obtain ⟨rfl, rfl⟩ := h
          obtain ⟨h1, h2, h3⟩ := ih xs sps1 r1 hm
          refine ⟨by simp [h1], List.Forall₂.cons ⟨?_, ?_, ?_⟩ h2, h3⟩
          · intro c hc; simp at hc; subst hc; exact hx
          · intro _; rfl
          · intro _; simp
        · simp [hx] at h
    | star =>
      simp only [hq, Option.map_eq_some'] at h
      obtain ⟨⟨sp, sps1, r1⟩, hm, h⟩ := h
      simp only [Prod.mk.injEq] at h
      obtain ⟨rfl, rfl⟩ := h
      obtain ⟨u, hu, hall, hk⟩ := starLoop_sound _ _ s sp (sps1, r1) hm
      obtain ⟨h1, h2, h3⟩ := ih u sps1 r1 hk
      refine ⟨by simp [hu, h1], List.Forall₂.cons ⟨hall, ?_, ?_⟩ h2, h3⟩
      · intro hc; rw [hq] at hc; cases hc
      · intro hc; rw [hq] at hc; cases hc
    | plus =>
      simp only [hq] at h
      cases s with
      | nil => simp at h
      | cons x xs =>
        simp only at h
        by_cases hx : it.cls x = true
        · simp only [hx, if_true, Option.map_eq_some'] at h
          obtain ⟨⟨sp, sps1, r1⟩, hm, h⟩ := h
          simp only [Prod.mk.injEq] at h
          obtain ⟨rfl, rfl⟩ := h
          obtain ⟨u, hu, hall, hk⟩ := starLoop_sound _ _ xs sp (sps1, r1) hm
          obtain ⟨h1, h2, h3⟩ := ih u sps1 r1 hk
          refine ⟨by simp [hu, h1], List.Forall₂.cons ⟨?_, ?_, ?_⟩ h2, h3⟩
          · intro c hc
            rcases List.mem_cons.mp hc with rfl | hc
            · exact hx
            · exact hall c hc
          · intro hc; rw [hq] at hc; cases hc
          · intro _; simp
        · simp [hx] at h

theorem search_sound (re : Regex) :
    ∀ (s pre p : Str) (sps : List Str) (r : Str), search re pre s = some (p, sps, r) →
      pre ++ s = p ++ sps.flatten ++ r ∧ List.Forall₂ spanOk re.items sps ∧
        (re.eol = true → r = []) ∧ (re.bol = true → p = pre) := by
  intro s
  induction s with
  | nil =>
    intro pre p sps r h
    simp only [search, Option.map_eq_some'] at h
    obtain ⟨⟨sps1, r1⟩, hm, h⟩ := h
    simp only [Prod.mk.injEq] at h
    obtain ⟨rfl, rfl, rfl⟩ := h
    obtain ⟨h1, h2, h3⟩ := matchItems_sound _ _ _ _ _ hm
    exact ⟨by rw [List.append_assoc, ← h1], h2, h3, fun _ => rfl⟩
  | cons x xs ih =>
    intro pre p sps r h
    simp only [search] at h
    cases hm : matchItems re.eol re.items (x :: xs) with
    | some v =>
      obtain ⟨sps1, r1⟩ := v
      simp only [hm, Option.some.injEq, Prod.mk.injEq] at h
      obtain ⟨rfl, rfl, rfl⟩ := h
      obtain ⟨h1, h2, h3⟩ := matchItems_sound _ _ _ _ _ hm
      exact ⟨by rw [List.append_assoc, ← h1], h2, h3, fun _ => rfl⟩
    | none =>
      simp only [hm] at h
      by_cases hb : re.bol = true
      · simp [hb] at h
      · simp only [hb, Bool.false_eq_true, if_false] at h
        obtain ⟨h1, h2, h3, _⟩ := ih _ _ _ _ h
        refine ⟨by simpa using h1, h2, h3, fun hh => absurd hh hb⟩

theorem spanOk_lit (c : Char) (sp : Str) (h : spanOk (lit c) sp) : sp = [c] := by
  obtain ⟨h1, h2, _⟩ := h
  have hl := h2 rfl
  match sp, hl with
  | [x], _ =>
    have := h1 x (by simp)
    simp only [lit, beq_iff_eq] at this
    rw [this]

theorem forall₂_spanOk_lits (cs : List Char) (rest : List Item) :
    ∀ sps : List Str, List.Forall₂ spanOk (cs.map lit ++ rest) sps →
      ∃ tl, sps = cs.map (fun c => [c]) ++ tl ∧ List.Forall₂ spanOk rest tl := by
  induction cs with
  | nil => intro sps h; exact ⟨sps, rfl, h⟩
  | cons c cs ih =>
    intro sps h
    simp only [List.map_cons, List.cons_append] at h
    cases h with
    | cons hsp htl =>
      obtain ⟨tl, rfl, h2⟩ := ih _ htl
      exact ⟨tl, by rw [spanOk_lit c _ hsp]; rfl, h2⟩

theorem flatten_singletons (cs : List Char) : (cs.map (fun c => [c])).flatten = cs := by
  induction cs with
  | nil => rfl
  | cons c cs ih => simp [ih]

theorem forall₂_spanOk_cons (it : Item) (rest : List Item) (sps : List Str)
    (h : List.Forall₂ spanOk (it :: rest) sps) :
    ∃ sp tl, sps = sp :: tl ∧ spanOk it sp ∧ List.Forall₂ spanOk rest tl := by
  cases h with
  | cons hsp htl => exact ⟨_, _, rfl, hsp, htl⟩

theorem forall₂_spanOk_lits_end (cs : List Char) (sps : List Str)
    (h : List.Forall₂ spanOk (cs.map lit) sps) : sps = cs.map (fun c => [c]) := by
  have h2 : List.Forall₂ spanOk (cs.map lit ++ []) sps := by simpa using h
  obtain ⟨tl, rfl, h3⟩ := forall₂_spanOk_lits _ _ _ h2
  cases h3
  simp

/-- A match of `printVarRe` is the whole line `println!(<word>)`. -/
theorem printVar_sound (t p r : Str) (sps : List Str)
    (h : search printVarRe [] t = some (p, sps, r)) :
    ∃ w, w ≠ [] ∧ (∀ c ∈ w, isWord c = true) ∧
      t = "println!(".toList ++ w ++ ")".toList ∧
      sps = "println!(".toList.map (fun c => [c]) ++ [w, [')']] := by
  obtain ⟨h1, h2, h3, h4⟩ := search_sound _ _ _ _ _ _ h
  have hr := h3 rfl
  have hp := h4 rfl
  subst hr hp
  simp only [printVarRe, lits, List.append_assoc] at h2
  obtain ⟨tl1, rfl, g1⟩ := forall₂_spanOk_lits _ _ _ h2
  obtain ⟨w, tl2, rfl, hw, g2⟩ := forall₂_spanOk_cons _ _ _ g1
  have g3 := forall₂_spanOk_lits_end _ _ g2
  subst g3
  refine ⟨w, hw.2.2 rfl, hw.1, ?_, rfl⟩
  simp only [List.nil_append, List.append_nil] at h1
  rw [h1]
  simp only [List.flatten_append, flatten_singletons, List.flatten_cons]
  rfl

/-- A match of `fStrRe` is an `f"`, a text without `"`, and a `"`. -/
theorem fStr_sound (t p r : Str) (sps : List Str)
    (h : search fStrRe [] t = some (p, sps, r)) :
    ∃ c, (∀ x ∈ c, x ≠ '"') ∧ t = p ++ "f\"".toList ++ c ++ "\"".toList ++ r ∧
      sps = [['f'], ['"'], c, ['"']] := by
  obtain ⟨h1, h2, _, _⟩ := search_sound _ _ _ _ _ _ h
  simp only [fStrRe, lits, List.append_assoc] at h2
  obtain ⟨tl1, rfl, g1⟩ := forall₂_spanOk_lits _ _ _ h2
  obtain ⟨w, tl2, rfl, hw, g2⟩ := forall₂_spanOk_cons _ _ _ g1
  have g3 := forall₂_spanOk_lits_end _ _ g2
  subst g3
  refine ⟨w, ?_, ?_, rfl⟩
  · intro x hx
    have := hw.1 x hx
    simpa [group, star, notChar] using this
  · simp only [List.nil_append] at h1
    rw [h1]
    simp only [List.flatten_append, flatten_singletons, List.flatten_cons]
    simp

/-- A match of `assignRe` is `<word> = f"{<word>}"` with optional blanks
around the `=`. -/
theorem assign_sound (t p r : Str) (sps : List Str)
    (h : search assignRe [] t = some (p, sps, r)) :
    ∃ a w1 w2 b, a ≠ [] ∧ (∀ c ∈ a, isWord c = true) ∧ b ≠ [] ∧ (∀ c ∈ b, isWord c = true) ∧
      (∀ c ∈ w1, isReSpace c = true) ∧ (∀ c ∈ w2, isReSpace c = true) ∧
      t = p ++ a ++ w1 ++ "=".toList ++ w2 ++ "f\"\x7b".toList ++ b ++ "\x7d\"".toList ++ r ∧
      sps = [a, w1, ['='], w2, ['f'], ['"'], ['{'], b, ['}'], ['"']] := by
  obtain ⟨h1, h2, _, _⟩ := search_sound _ _ _ _ _ _ h
  simp only [assignRe, lits, List.append_assoc, List.cons_append, List.nil_append] at h2
  obtain ⟨a, tl1, rfl, ha, g1⟩ := forall₂_spanOk_cons _ _ _ h2
  obtain ⟨w1, tl2, rfl, hw1, g2⟩ := forall₂_spanOk_cons _ _ _ g1
  obtain ⟨tl3, rfl, g3⟩ := forall₂_spanOk_lits _ _ _ g2
  obtain ⟨w2, tl4, rfl, hw2, g4⟩ := forall₂_spanOk_cons _ _ _ g3
  obtain ⟨tl5, rfl, g5⟩ := forall₂_spanOk_lits _ _ _ g4
  obtain ⟨b, tl6, rfl, hb, g6⟩ := forall₂_spanOk_cons _ _ _ g5
  have g7 := forall₂_spanOk_lits_end _ _ g6
  subst g7
  refine ⟨a, w1, w2, b, ha.2.2 rfl, ha.1, hb.2.2 rfl, hb.1, hw1.1, hw2.1, ?_, rfl⟩
  simp only [List.nil_append] at h1
  rw [h1]
  simp only [List.flatten_append, flatten_singletons, List.flatten_cons]
  simp

/-! ## The dispatcher on lines without an interpolated literal -/

theorem findStringSubmatch_eq_nil (re : Regex) (t : Str) (h : search re [] t = none) :
    findStringSubmatch re t = [] := by
  simp [findStringSubmatch, h]

theorem printVar_nil (t : Str) (h : ¬ isPrintVar t) : findStringSubmatch printVarRe t = [] := by
  apply findStringSubmatch_eq_nil
  cases hs : search printVarRe [] t with
  | none => rfl
  | some v =>
    obtain ⟨p, sps, r⟩ := v
    obtain ⟨w, h1, h2, h3, _⟩ := printVar_sound _ _ _ _ hs
    exact absurd ⟨w, h1, h2, h3⟩ h

theorem fStr_nil (t : Str) (h : ¬ hasInterpolatedLiteral t) : findStringSubmatch fStrRe t = [] := by
  apply findStringSubmatch_eq_nil
  cases hs : search fStrRe [] t with
  | none => rfl
  | some v =>
    obtain ⟨p, sps, r⟩ := v
    obtain ⟨c, _, h3, _⟩ := fStr_sound _ _ _ _ hs
    exact absurd ⟨p, c, r, h3⟩ h

theorem assign_nil (t : Str) (h : ¬ hasInterpolatedLiteral t) : findStringSubmatch assignRe t = [] := by
  apply findStringSubmatch_eq_nil
  cases hs : search assignRe [] t with
  | none => rfl
  | some v =>
    obtain ⟨p, sps, r⟩ := v
    obtain ⟨a, w1, w2, b, _, _, _, _, _, _, h3, _⟩ := assign_sound _ _ _ _ hs
    refine absurd ⟨p ++ a ++ w1 ++ "=".toList ++ w2, '{' :: b ++ ['}'], r, ?_⟩ h
    rw [h3]; simp

/-- Without an interpolated literal `handleFString` returns the line as it is
and leaves the binding table alone. -/
theorem handleFString_of_no_literal (tbl : VarExprs) (t : Str)
    (h : ¬ hasInterpolatedLiteral t) : handleFString tbl t = some (t, tbl) := by
  simp [handleFString, assign_nil t h, fStr_nil t h]

theorem no_literal_of_not_contains (t : Str) (h : contains t "f\"".toList = false) :
    ¬ hasInterpolatedLiteral t := by
  rintro ⟨p, c, q, rfl⟩
  rw [contains_eq_false_iff] at h
  exact h ⟨p, c ++ "\"".toList ++ q, by simp⟩

/-- Lines 85-97 of `translateLine` on a trimmed line that is neither
`println!(<word>)` nor holds an interpolated literal. -/
theorem translateLine_plain (tbl : VarExprs) (line : Str)
    (h1 : ¬ isPrintVar (trimSpace line)) (h2 : ¬ hasInterpolatedLiteral (trimSpace line)) :
    translateLine tbl line =
      match isAssignment (trimSpace line) with
      | (name, value, true) =>
        some ("let ".toList ++ name ++ " = ".toList ++ value ++ ";".toList, tbl)
      | (_, _, false) =>
        if hasSuffix (trimSpace line) "()".toList then some (trimSpace line ++ ";".toList, tbl)
        else some (trimSpace line, tbl) := by
  unfold translateLine
  simp only [printVar_nil _ h1, handleFString_of_no_literal tbl _ h2, List.length_nil,
    ite_self]
  simp

theorem isPrintVar_no_blank (t : Str) (h : isPrintVar t) : ' ' ∉ t := by
  obtain ⟨w, _, hw, rfl⟩ := h
  intro hm
  simp only [List.mem_append] at hm
  rcases hm with (hm | hm) | hm
  · revert hm; decide
  · exact absurd (hw _ hm) (by decide)
  · revert hm; decide

theorem isPrintVar_not_call (t : Str) (h : isPrintVar t) : ¬ "()".toList <:+ t := by
  obtain ⟨w, hne, hw, rfl⟩ := h
  rintro ⟨u, hu⟩
  have h1 : (u ++ ['(']) ++ [')'] = ("println!(".toList ++ w) ++ [')'] := by
    simpa using hu
  have h2 := List.append_inj_left' h1 rfl
  have h3 : ("println!(".toList ++ w).getLast? = some '(' := by
    rw [← h2]; simp
  rw [List.getLast?_append_of_ne_nil _ hne] at h3
  have := hw _ (List.mem_of_getLast?_eq_some h3)
  exact absurd this (by decide)

/-- C1. A trimmed line without `f"` that `Split` cuts at `" be "` into exactly
two parts `n` and `e` is translated to `let n = e;`, both parts copied as they
are; the trimmed line is `n ++ " be " ++ e`, and the binding table is not
touched. -/
theorem translateLine_assignment (tbl : VarExprs) (line n e : Str)
    (hf : contains (trimSpace line) "f\"".toList = false)
    (hs : split (trimSpace line) " be ".toList = [n, e]) :
    translateLine tbl line =
        some ("let ".toList ++ n ++ " = ".toList ++ e ++ ";".toList, tbl) ∧
      trimSpace line = n ++ " be ".toList ++ e := by
  obtain ⟨hc, heq⟩ := split_two _ _ _ _ hs
  refine ⟨?_, heq⟩
  have h1 : ¬ isPrintVar (trimSpace line) := by
    intro hp
    apply isPrintVar_no_blank _ hp
    rw [heq]; simp
  have ha : isAssignment (trimSpace line) = (n, e, true) := by
    unfold isAssignment
    rw [if_pos hc, hs]
  rw [translateLine_plain tbl line h1 (no_literal_of_not_contains _ hf), ha]

theorem translateLine_assignment_witness :
    translateLine VarExprs.empty "x be 5".toList =
        some ("let ".toList ++ "x".toList ++ " = ".toList ++ "5".toList ++ ";".toList,
          VarExprs.empty) ∧
      trimSpace "x be 5".toList = "x".toList ++ " be ".toList ++ "5".toList :=
  translateLine_assignment VarExprs.empty "x be 5".toList "x".toList "5".toList
    (by decide) (by decide)

/-! ## Matches that succeed -/

/-- A repetition that can take all of `a`, cannot take the next character and
whose continuation succeeds right after `a`, takes exactly `a`. -/
theorem starLoop_munch (cls : Char → Bool) (k : Str → Option (List Str × Str))
    (a b : Str) (res : List Str × Str) (ha : ∀ c ∈ a, cls c = true)
    (hb : ∀ c, b.head? = some c → cls c = false) (hk : k b = some res) :
    starLoop cls k (a ++ b) = some (a, res) := by
  induction a with
  | nil =>
    cases b with
    | nil => simp [starLoop, hk]
    | cons x xs => simp [starLoop, hb x rfl, hk]
  | cons x a ih =>
    have hx : cls x = true := ha x (by simp)
    have := ih (fun c hc => ha c (by simp [hc]))
    simp [starLoop, hx, this]

theorem matchItems_lits (eot : Bool) (rest : List Item) (s : Str) : ∀ cs : List Char,
    matchItems eot (cs.map lit ++ rest) (cs ++ s) =
      (matchItems eot rest s).map fun r => (cs.map (fun c => [c]) ++ r.1, r.2) := by
  intro cs
  induction cs with
  | nil => simp
  | cons c cs ih =>
    simp only [List.map_cons, List.cons_append, matchItems, lit, beq_self_eq_true, if_true,
      List.append_eq]
    rw [ih]
    cases matchItems eot rest s <;> simp

theorem matchItems_plus (eot : Bool) (cls : Char → Bool) (rest : List Item) (x : Char)
    (a b : Str) (res : List Str × Str) (hx : cls x = true) (ha : ∀ c ∈ a, cls c = true)
    (hb : ∀ c, b.head? = some c → cls c = false) (hk : matchItems eot rest b = some res) :
    matchItems eot (group (plus cls) :: rest) (x :: a ++ b) =
      some ((x :: a) :: res.1, res.2) := by
  simp only [matchItems, group, plus, List.cons_append, hx, if_true]
  rw [starLoop_munch cls _ a b res ha hb hk]
  rfl

theorem search_cons_of_match (re : Regex) (pre : Str) (x : Char) (xs : Str)
    (r : List Str × Str) (h : matchItems re.eol re.items (x :: xs) = some r) :
    search re pre (x :: xs) = some (pre, r) := by
  simp [search, h]

theorem search_printVar (w : Str) (hw : w ≠ []) (hall : ∀ c ∈ w, isWord c = true) :
    search printVarRe [] ("println!(".toList ++ w ++ ")".toList) =
      some ([], "println!(".toList.map (fun c => [c]) ++ [w, [')']], []) := by
  obtain ⟨x, a, rfl⟩ := List.exists_cons_of_ne_nil hw
  have hm : matchItems true printVarRe.items ("println!(".toList ++ (x :: a) ++ ")".toList) =
      some ("println!(".toList.map (fun c => [c]) ++ [x :: a, [')']], []) := by
    have h1 := matchItems_plus true isWord (lits ")") x a ")".toList ([[')']], [])
      (hall x (by simp)) (fun c hc => hall c (by simp [hc]))
      (by intro c hc; simp at hc; subst hc; decide) (by decide)
    have h2 := matchItems_lits true (group (plus isWord) :: lits ")") (x :: a ++ ")".toList)
      "println!(".toList
    rw [h1] at h2
    simp only [printVarRe, lits, List.append_assoc]
    simpa using h2
  have hs : "println!(".toList ++ (x :: a) ++ ")".toList =
      'p' :: ("rintln!(".toList ++ (x :: a) ++ ")".toList) := rfl
  rw [hs, search, ← hs, show printVarRe.eol = true from rfl, hm]

theorem findStringSubmatch_printVar (w : Str) (hw : w ≠ []) (hall : ∀ c ∈ w, isWord c = true) :
    findStringSubmatch printVarRe ("println!(".toList ++ w ++ ")".toList) =
      ["println!(".toList ++ w ++ ")".toList, w] := by
  simp only [findStringSubmatch, search_printVar w hw hall]
  simp [printVarRe, lits, lit, group, plus, captures]

/-- C2. For every non-empty word `w`, the line `println!(w)`, with any white
space before and after it, is translated to `println!("{}", w);`. The result
does not depend on any later rule, and the binding table is not touched. -/
theorem translateLine_printVar (tbl : VarExprs) (pre post w : Str) (hw : w ≠ [])
    (hall : ∀ c ∈ w, isWord c = true) (hpre : ∀ c ∈ pre, isSpace c = true)
    (hpost : ∀ c ∈ post, isSpace c = true) :
    translateLine tbl (pre ++ ("println!(".toList ++ w ++ ")".toList) ++ post) =
      some ("println!(\"\x7b\x7d\", ".toList ++ w ++ ");".toList, tbl) := by
  have ht : trimSpace (pre ++ ("println!(".toList ++ w ++ ")".toList) ++ post) =
      "println!(".toList ++ w ++ ")".toList := by
    apply trimSpace_pad _ _ _ hpre hpost
    · intro c hc
      have : c = 'p' := by simpa using hc.symm
      subst this; decide
    · intro c hc
      rw [List.getLast?_append_of_ne_nil _ (by decide)] at hc
      have : ')' = c := by simpa using hc
      subst this; decide
  unfold translateLine
  simp only [ht, findStringSubmatch_printVar w hw hall]
  simp

theorem translateLine_printVar_witness :
    translateLine VarExprs.empty
        (" ".toList ++ ("println!(".toList ++ "x".toList ++ ")".toList) ++ "\t".toList) =
      some ("println!(\"\x7b\x7d\", ".toList ++ "x".toList ++ ");".toList, VarExprs.empty) :=
  translateLine_printVar VarExprs.empty " ".toList "\t".toList "x".toList (by decide)
    (by decide) (by decide) (by decide)

/-! ## The dispatcher after the `println!(<word>)` test -/

/-- When the `println!(<word>)` rule does not apply, `translateLine` is the
optional `handleFString` step followed by the last three rules. -/
theorem translateLine_of_not_printVar (tbl : VarExprs) (line : Str)
    (h1 : ¬ isPrintVar (trimSpace line)) :
    translateLine tbl line =
      (if contains (trimSpace line) "f\"".toList || hasPrefix (trimSpace line) "print(f".toList
        then handleFString tbl (trimSpace line)
        else some (trimSpace line, tbl)).map fun r => (lastRules r.1, r.2) := by
  unfold translateLine
  simp only [printVar_nil _ h1, List.length_nil]
  rw [if_neg (by decide)]
  generalize (if contains (trimSpace line) "f\"".toList || hasPrefix (trimSpace line) "print(f".toList
        then handleFString tbl (trimSpace line)
        else some (trimSpace line, tbl)) = r
  cases r with
  | none => rfl
  | some v =>
    obtain ⟨l, tb⟩ := v
    simp only [Option.map_some', lastRules]
    rcases hq : isAssignment l with ⟨n, e, b⟩
    cases b
    · simp only
      split <;> rfl
    · rfl

/-! ## The single-placeholder assignment form -/

theorem isSpace_of_isWord (c : Char) (h : isWord c = true) : isSpace c = false := by
  rw [Bool.eq_false_iff]
  intro hs
  simp only [isWord, isSpace, Bool.or_eq_true, Bool.and_eq_true, decide_eq_true_eq,
    beq_iff_eq] at h hs
  omega

theorem ne_blank_of_isWord (c : Char) (h : isWord c = true) : c ≠ ' ' := by
  rintro rfl
  exact absurd h (by decide)

theorem matchItems_star (eot : Bool) (cls : Char → Bool) (rest : List Item)
    (a b : Str) (res : List Str × Str) (ha : ∀ c ∈ a, cls c = true)
    (hb : ∀ c, b.head? = some c → cls c = false) (hk : matchItems eot rest b = some res) :
    matchItems eot (star cls :: rest) (a ++ b) = some (a :: res.1, res.2) := by
  simp only [matchItems, star]
  rw [starLoop_munch cls _ a b res ha hb hk]
  rfl

theorem head?_append_word (b r : Str) (c : Char) (hb : b ≠ []) (hall : ∀ c ∈ b, isWord c = true)
    (h : (b ++ r).head? = some c) : isWord c = true := by
  obtain ⟨x, b, rfl⟩ := List.exists_cons_of_ne_nil hb
  simp only [List.cons_append, List.head?_cons, Option.some.injEq] at h
  subst h
  exact hall x (by simp)

/-- The pattern `assignRe` matches the line `a = f"{b}"` from its start, with
groups `a` and `b`. -/
theorem findStringSubmatch_assign (a b : Str) (ha : a ≠ []) (hwa : ∀ c ∈ a, isWord c = true)
    (hb : b ≠ []) (hwb : ∀ c ∈ b, isWord c = true) :
    findStringSubmatch assignRe (a ++ " = f\"\x7b".toList ++ b ++ "\x7d\"".toList) =
      [a ++ " = f\"\x7b".toList ++ b ++ "\x7d\"".toList, a, b] := by
  obtain ⟨x, a, rfl⟩ := List.exists_cons_of_ne_nil ha
  obtain ⟨y, b, rfl⟩ := List.exists_cons_of_ne_nil hb
  have e1 : matchItems false (lits "\x7d\"") ("\x7d\"".toList) = some ([['}'], ['"']], []) := by
    decide
  have e2 := matchItems_plus false isWord (lits "\x7d\"") y b "\x7d\"".toList _
    (hwb y (by simp)) (fun c hc => hwb c (by simp [hc]))
    (by intro c hc; simp at hc; subst hc; decide) e1
  have e3 := matchItems_lits false (group (plus isWord) :: lits "\x7d\"")
    (y :: b ++ "\x7d\"".toList) "f\"\x7b".toList
  rw [e2] at e3
  have e4 := matchItems_star false isReSpace
    ("f\"\x7b".toList.map lit ++ group (plus isWord) :: lits "\x7d\"") " ".toList
    ("f\"\x7b".toList ++ (y :: b ++ "\x7d\"".toList)) _ (by decide)
    (by intro c hc; simp at hc; subst hc; decide) e3
  have e5 := matchItems_lits false
    (star isReSpace :: ("f\"\x7b".toList.map lit ++ group (plus isWord) :: lits "\x7d\""))
    (" ".toList ++ ("f\"\x7b".toList ++ (y :: b ++ "\x7d\"".toList))) "=".toList
  rw [e4] at e5
  have e6 := matchItems_star false isReSpace
    ("=".toList.map lit ++
      star isReSpace :: ("f\"\x7b".toList.map lit ++ group (plus isWord) :: lits "\x7d\"")) " ".toList
    ("=".toList ++ (" ".toList ++ ("f\"\x7b".toList ++ (y :: b ++ "\x7d\"".toList)))) _ (by decide)
    (by intro c hc; simp at hc; subst hc; decide) e5
  have e7 := matchItems_plus false isWord
    (star isReSpace :: ("=".toList.map lit ++
      star isReSpace :: ("f\"\x7b".toList.map lit ++ group (plus isWord) :: lits "\x7d\""))) x a
    (" ".toList ++ ("=".toList ++ (" ".toList ++ ("f\"\x7b".toList ++ (y :: b ++ "\x7d\"".toList))))) _
    (hwa x (by simp)) (fun c hc => hwa c (by simp [hc]))
    (by intro c hc; simp at hc; subst hc; decide) e6
  have hs : search assignRe [] (x :: a ++ " = f\"\x7b".toList ++ (y :: b) ++ "\x7d\"".toList) =
      some ([], [x :: a, [' '], ['='], [' '], ['f'], ['"'], ['{'], y :: b, ['}'], ['"']], []) := by
    have hl : x :: a ++ " = f\"\x7b".toList ++ (y :: b) ++ "\x7d\"".toList =
        x :: (a ++ " = f\"\x7b".toList ++ y :: (b ++ "\x7d\"".toList)) := by simp
    have : matchItems assignRe.eol assignRe.items
        (x :: (a ++ " = f\"\x7b".toList ++ y :: (b ++ "\x7d\"".toList))) =
        some ([x :: a, [' '], ['='], [' '], ['f'], ['"'], ['{'], y :: b, ['}'], ['"']], []) := by
      simpa [assignRe, lits] using e7
    rw [hl, search_cons_of_match _ _ _ _ _ this]
  simp only [findStringSubmatch, hs]
  simp [assignRe, lits, lit, group, plus, star, captures]

theorem handleFString_assign (tbl : VarExprs) (a b : Str) (ha : a ≠ [])
    (hwa : ∀ c ∈ a, isWord c = true) (hb : b ≠ []) (hwb : ∀ c ∈ b, isWord c = true) :
    handleFString tbl (a ++ " = f\"\x7b".toList ++ b ++ "\x7d\"".toList) =
      some ("let ".toList ++ a ++ " = format!(\"\x7b\x7d\", ".toList ++ b ++ ");".toList,
        tbl.set a b) := by
  unfold handleFString
  simp only [findStringSubmatch_assign a b ha hwa hb hwb]
  simp

theorem contains_skip (s0 : Char) (srest w r : Str) (h : ∀ c ∈ w, c ≠ s0) :
    contains (w ++ r) (s0 :: srest) = contains r (s0 :: srest) := by
  induction w with
  | nil => rfl
  | cons x w ih =>
    have hx : (s0 == x) = false := by
      rw [beq_eq_false_iff_ne]
      exact fun e => h x (by simp) e.symm
    simp only [List.cons_append, contains, List.isPrefixOf, hx, Bool.false_and, Bool.false_or]
    exact ih (fun c hc => h c (by simp [hc]))

theorem contains_blank_cons (r srest : Str) :
    contains (' ' :: r) (' ' :: srest) = (srest.isPrefixOf r || contains r (' ' :: srest)) := by
  simp [contains, List.isPrefixOf]

/-- The text `be ` can start a blank-free word followed by `r` only if the
word is `be`. -/
theorem be_start (a r : Str) (hne : a ≠ []) (ha : ∀ c ∈ a, c ≠ ' ')
    (hr : ∀ c, r.head? = some c → c ≠ 'e')
    (h : "be ".toList.isPrefixOf (a ++ r) = true) : a = "be".toList := by
  rw [List.isPrefixOf_iff_prefix] at h
  obtain ⟨u, hu⟩ := h
  match a, hne, ha with
  | [x], _, _ =>
    cases r with
    | nil => simp at hu
    | cons y r =>
      simp only [String.toList, List.cons_append, List.nil_append, List.cons.injEq] at hu
      exact absurd hu.2.1 (hr y rfl).symm
  | [x, y], _, _ =>
    simp only [String.toList, List.cons_append, List.nil_append, List.cons.injEq] at hu
    rw [← hu.1, ← hu.2.1]; rfl
  | x :: y :: z :: l, _, ha =>
    simp only [String.toList, List.cons_append, List.nil_append, List.cons.injEq] at hu
    exact absurd hu.2.2.1.symm (ha z (by simp))

theorem hasSuffix_call_of_last (s : Str) (c : Char) (h : s.getLast? = some c) (hc : c ≠ ')') :
    hasSuffix s "()".toList = false := by
  rw [Bool.eq_false_iff]
  intro hs
  rw [hasSuffix_iff] at hs
  obtain ⟨u, rfl⟩ := hs
  rw [List.getLast?_append_of_ne_nil _ (by decide)] at h
  have : ')' = c := by simpa using h
  exact hc this.symm

/-- The text `let a = format!("{}", b);` holds no ` be ` unless `a` is `be`. -/
theorem contains_be_format (a b : Str) (ha : a ≠ []) (hwa : ∀ c ∈ a, isWord c = true)
    (hb : b ≠ []) (hwb : ∀ c ∈ b, isWord c = true) (hbe : a ≠ "be".toList) :
    contains ("let ".toList ++ a ++ " = format!(\"\x7b\x7d\", ".toList ++ b ++ ");".toList)
      " be ".toList = false := by
  have hl : "let ".toList ++ a ++ " = format!(\"\x7b\x7d\", ".toList ++ b ++ ");".toList =
      "let".toList ++ (' ' :: (a ++ (' ' :: ("=".toList ++ (' ' :: ("format!(\"\x7b\x7d\",".toList ++
        (' ' :: (b ++ ");".toList)))))))) := by simp
  have hsep : " be ".toList = ' ' :: "be ".toList := rfl
  have pa : "be ".toList.isPrefixOf
      (a ++ (' ' :: ("=".toList ++ (' ' :: ("format!(\"\x7b\x7d\",".toList ++
        (' ' :: (b ++ ");".toList))))))) = false := by
    rw [Bool.eq_false_iff]
    intro h
    exact hbe (be_start _ _ ha (fun c hc => ne_blank_of_isWord c (hwa c hc))
      (by intro c hc; simp at hc; subst hc; decide) h)
  have pb : "be ".toList.isPrefixOf (b ++ ");".toList) = false := by
    rw [Bool.eq_false_iff]
    intro h
    have := be_start _ _ hb (fun c hc => ne_blank_of_isWord c (hwb c hc))
      (by intro c hc; simp at hc; subst hc; decide) h
    subst this
    revert h; decide
  rw [hl, hsep, contains_skip _ _ _ _ (by decide), contains_blank_cons, pa, Bool.false_or,
    contains_skip _ _ _ _ (fun c hc => ne_blank_of_isWord c (hwa c hc)), contains_blank_cons,
    contains_skip _ _ _ _ (by decide), contains_blank_cons,
    contains_skip _ _ _ _ (by decide), contains_blank_cons, pb, Bool.false_or,
    contains_skip _ _ _ _ (fun c hc => ne_blank_of_isWord c (hwb c hc))]
  have hfin : contains ");".toList (' ' :: "be ".toList) = false := by decide
  rw [hfin]
  simp [List.isPrefixOf]

/-- C3 (amended). For identifiers `a` and `b`, translating `a = f"{b}"` always
records the binding `a ↦ b`, and for every `a` other than `be` the output is
exactly `let a = format!("{}", b);`. -/
theorem translateLine_fstringAssign (tbl : VarExprs) (a b : Str) (ha : a ≠ [])
    (hwa : ∀ c ∈ a, isWord c = true) (hb : b ≠ []) (hwb : ∀ c ∈ b, isWord c = true) :
    ∃ out, translateLine tbl (a ++ " = f\"\x7b".toList ++ b ++ "\x7d\"".toList) =
        some (out, tbl.set a b) ∧
      (tbl.set a b) a = some b ∧
      (a ≠ "be".toList →
        out = "let ".toList ++ a ++ " = format!(\"\x7b\x7d\", ".toList ++ b ++ ");".toList) := by
  have ht : trimSpace (a ++ " = f\"\x7b".toList ++ b ++ "\x7d\"".toList) =
      a ++ " = f\"\x7b".toList ++ b ++ "\x7d\"".toList := by
    have := trimSpace_pad [] (a ++ " = f\"\x7b".toList ++ b ++ "\x7d\"".toList) [] (by simp) (by simp)
      (by
        intro c hc
        rw [List.append_assoc, List.append_assoc] at hc
        exact isSpace_of_isWord c (head?_append_word a _ c ha hwa hc))
      (by
        intro c hc
        rw [List.getLast?_append_of_ne_nil _ (by decide)] at hc
        have : '"' = c := by simpa using hc
        subst this; decide)
    simpa using this
  have hp : ¬ isPrintVar (trimSpace (a ++ " = f\"\x7b".toList ++ b ++ "\x7d\"".toList)) := by
    rw [ht]
    intro h
    apply isPrintVar_no_blank _ h
    simp
  have hc : contains (a ++ " = f\"\x7b".toList ++ b ++ "\x7d\"".toList) "f\"".toList = true := by
    rw [contains_iff]
    exact ⟨a ++ " = ".toList, "\x7b".toList ++ b ++ "\x7d\"".toList, by simp⟩
  refine ⟨lastRules ("let ".toList ++ a ++ " = format!(\"\x7b\x7d\", ".toList ++ b ++ ");".toList),
    ?_, by simp [VarExprs.set], ?_⟩
  · rw [translateLine_of_not_printVar tbl _ hp, ht, hc, Bool.true_or, if_pos rfl,
      handleFString_assign tbl a b ha hwa hb hwb]
    rfl
  · intro hbe
    have h1 := contains_be_format a b ha hwa hb hwb hbe
    have h2 : hasSuffix ("let ".toList ++ a ++ " = format!(\"\x7b\x7d\", ".toList ++ b ++ ");".toList)
        "()".toList = false := by
      apply hasSuffix_call_of_last _ ';' _ (by decide)
      rw [List.getLast?_append_of_ne_nil _ (by decide)]
      rfl
    unfold lastRules isAssignment
    rw [h1, h2]
    simp

theorem translateLine_fstringAssign_witness :
    "n".toList ≠ "be".toList ∧
      ∃ out, translateLine VarExprs.empty ("n".toList ++ " = f\"\x7b".toList ++ "n".toList ++
            "\x7d\"".toList) = some (out, VarExprs.empty.set "n".toList "n".toList) ∧
        (VarExprs.empty.set "n".toList "n".toList) "n".toList = some "n".toList ∧
        ("n".toList ≠ "be".toList →
          out = "let ".toList ++ "n".toList ++ " = format!(\"\x7b\x7d\", ".toList ++
            "n".toList ++ ");".toList) :=
  ⟨by decide, translateLine_fstringAssign VarExprs.empty "n".toList "n".toList (by decide)
    (by decide) (by decide) (by decide)⟩

/-- C3, counterexample. The identifiers `be` and `n` meet the conditions of the
claim, but the line `be = f"{n}"` is translated to
`let let = = format!("{}", n);;`: the output of `handleFString` contains
` be ` and is rewritten once more by the assignment rule. -/
theorem translateLine_fstringAssign_be :
    (∀ c ∈ "be".toList, isWord c = true) ∧ (∀ c ∈ "n".toList, isWord c = true) ∧
      (translateLine VarExprs.empty
          ("be".toList ++ " = f\"\x7b".toList ++ "n".toList ++ "\x7d\"".toList)).map Prod.fst =
        some "let let = = format!(\"\x7b\x7d\", n);;".toList ∧
      (translateLine VarExprs.empty
          ("be".toList ++ " = f\"\x7b".toList ++ "n".toList ++ "\x7d\"".toList)).map Prod.fst ≠
        some ("let ".toList ++ "be".toList ++ " = format!(\"\x7b\x7d\", ".toList ++ "n".toList ++
          ");".toList) := by
  decide

/-! ## Bare calls and pass-through -/

theorem not_isPrintVar_of_start (t : Str) (h : hasPrefix t "println!(".toList = false) :
    ¬ isPrintVar t := by
  rintro ⟨w, _, _, rfl⟩
  rw [Bool.eq_false_iff] at h
  apply h
  rw [hasPrefix_iff]
  exact ⟨w ++ ")".toList, by simp⟩

/-- C5. A line whose trimmed text `t` ends with `()`, contains no `f"` and is
not recognised by `isAssignment` is translated to `t` followed by `;`; the
binding table is not touched. -/
theorem translateLine_bareCall (tbl : VarExprs) (line : Str)
    (hcall : hasSuffix (trimSpace line) "()".toList = true)
    (hf : contains (trimSpace line) "f\"".toList = false)
    (ha : (isAssignment (trimSpace line)).2.2 = false) :
    translateLine tbl line = some (trimSpace line ++ ";".toList, tbl) := by
  have h1 : ¬ isPrintVar (trimSpace line) :=
    fun hp => isPrintVar_not_call _ hp ((hasSuffix_iff _ _).mp hcall)
  rw [translateLine_plain tbl line h1 (no_literal_of_not_contains _ hf)]
  rcases hq : isAssignment (trimSpace line) with ⟨n, e, b⟩
  rw [hq] at ha
  simp only at ha
  subst ha
  simp only [hcall, if_true]

theorem translateLine_bareCall_witness :
    translateLine VarExprs.empty "foo()".toList =
      some (trimSpace "foo()".toList ++ ";".toList, VarExprs.empty) :=
  translateLine_bareCall VarExprs.empty "foo()".toList (by decide) (by decide) (by decide)

theorem isAssignment_of_split_length (t : Str) (h : (split t " be ".toList).length ≠ 2) :
    isAssignment t = ([], [], false) := by
  unfold isAssignment
  split
  · split
    · rename_i heq
      rw [heq] at h
      exact absurd rfl h
    · rfl
  · rfl

/-- C6. A line whose trimmed text `t` is not `println!(<word>)`, holds no
interpolated literal, is not cut by `" be "` into exactly two parts and does not
end with `()` is returned as `t`, unchanged; the binding table is not touched. -/
theorem translateLine_passThrough (tbl : VarExprs) (line : Str)
    (h1 : ¬ isPrintVar (trimSpace line)) (h2 : ¬ hasInterpolatedLiteral (trimSpace line))
    (h3 : (split (trimSpace line) " be ".toList).length ≠ 2)
    (h4 : hasSuffix (trimSpace line) "()".toList = false) :
    translateLine tbl line = some (trimSpace line, tbl) := by
  rw [translateLine_plain tbl line h1 h2, isAssignment_of_split_length _ h3]
  simp only [h4, Bool.false_eq_true, if_false]

theorem translateLine_passThrough_witness :
    translateLine VarExprs.empty "  return x + 1 ".toList =
      some (trimSpace "  return x + 1 ".toList, VarExprs.empty) :=
  translateLine_passThrough VarExprs.empty "  return x + 1 ".toList
    (not_isPrintVar_of_start _ (by decide)) (no_literal_of_not_contains _ (by decide))
    (by decide) (by decide)

/-! ## `convertFString` against a one-pass scanner -/

theorem first_occurrence (c : Char) (t : Str) :
    c ∉ t ∨ ∃ n r, t = n ++ c :: r ∧ c ∉ n := by
  induction t with
  | nil => left; simp
  | cons x t ih =>
    by_cases hx : x = c
    · right; exact ⟨[], t, by simp [hx], by simp⟩
    · rcases ih with h | ⟨n, r, rfl, hn⟩
      · left
        simp only [List.mem_cons, not_or]
        exact ⟨fun e => hx e.symm, h⟩
      · right
        refine ⟨x :: n, r, rfl, ?_⟩
        simp only [List.mem_cons, not_or]
        exact ⟨fun e => hx e.symm, hn⟩

theorem scan_open_unclosed : ∀ (t buf : Str), '}' ∉ t →
    scan (some buf) t = ('{' :: (buf ++ t), []) := by
  intro t
  induction t with
  | nil => intro buf _; simp [scan]
  | cons x t ih =>
    intro buf h
    simp only [List.mem_cons, not_or] at h
    have hx : x ≠ '}' := fun e => h.1 e.symm
    simp only [scan, hx, if_false]
    rw [ih _ h.2]
    simp

theorem scan_open_closed : ∀ (a buf r : Str), '}' ∉ a →
    scan (some buf) (a ++ '}' :: r) =
      ('{' :: '}' :: (scan none r).1,
        if buf ++ a = [] then (scan none r).2 else (buf ++ a) :: (scan none r).2) := by
  intro a
  induction a with
  | nil => intro buf r _; simp [scan]
  | cons x a ih =>
    intro buf r h
    simp only [List.mem_cons, not_or] at h
    have hx : x ≠ '}' := fun e => h.1 e.symm
    simp only [List.cons_append, scan, hx, if_false, List.append_eq]
    rw [ih _ _ h.2]
    simp

theorem scan_outside_skip : ∀ (a r : Str), '{' ∉ a →
    scan none (a ++ r) = (a ++ (scan none r).1, (scan none r).2) := by
  intro a
  induction a with
  | nil => intro r _; rfl
  | cons x a ih =>
    intro r h
    simp only [List.mem_cons, not_or] at h
    have hx : x ≠ '{' := fun e => h.1 e.symm
    simp only [List.cons_append, scan, hx, if_false, List.append_eq]
    rw [ih _ h.2]

/-! ### The leftmost match of `placeholderRe` -/

theorem search_pre (re : Regex) : ∀ (s pre : Str),
    search re pre s = (search re [] s).map fun r => (pre ++ r.1, r.2) := by
  intro s
  induction s with
  | nil =>
    intro pre
    simp only [search]
    cases matchItems re.eol re.items [] <;> simp
  | cons x xs ih =>
    intro pre
    simp only [search]
    cases matchItems re.eol re.items (x :: xs) with
    | some r => simp
    | none =>
      by_cases hb : re.bol = true
      · simp [hb]
      · simp only [hb, Bool.false_eq_true, if_false]
        rw [ih (pre ++ [x]), ih ([] ++ [x])]
        cases search re [] xs <;> simp

theorem search_cons_of_no_match (re : Regex) (pre : Str) (x : Char) (xs : Str)
    (h : matchItems re.eol re.items (x :: xs) = none) (hb : re.bol = false) :
    search re pre (x :: xs) = (search re [] xs).map fun v => (pre ++ x :: v.1, v.2) := by
  simp only [search, h, hb, Bool.false_eq_true, if_false]
  rw [search_pre]
  cases search re [] xs <;> simp

theorem matchItems_ph_nil : matchItems false placeholderRe.items [] = none := by decide

theorem matchItems_ph_other (x : Char) (xs : Str) (hx : x ≠ '{') :
    matchItems false placeholderRe.items (x :: xs) = none := by
  simp [matchItems, placeholderRe, lits, lit, hx]

theorem matchItems_ph_empty (r : Str) :
    matchItems false placeholderRe.items ('{' :: '}' :: r) = none := by
  simp [matchItems, placeholderRe, lits, lit, group, plus, notChar]

theorem matchItems_ph (n r : Str) (hne : n ≠ []) (hn : '}' ∉ n) :
    matchItems false placeholderRe.items ('{' :: (n ++ '}' :: r)) =
      some ([['{'], n, ['}']], r) := by
  obtain ⟨x, a, rfl⟩ := List.exists_cons_of_ne_nil hne
  have hcls : ∀ c ∈ x :: a, notChar '}' c = true := by
    intro c hc
    simp only [notChar, bne_iff_ne, ne_eq]
    rintro rfl
    exact hn hc
  have e1 : matchItems false (lits "\x7d") ('}' :: r) = some ([['}']], r) := by
    simp [matchItems, lits, lit]
  have e2 := matchItems_plus false (notChar '}') (lits "\x7d") x a ('}' :: r) _
    (hcls x (by simp)) (fun c hc => hcls c (by simp [hc]))
    (by intro c hc; simp at hc; subst hc; decide) e1
  have e3 := matchItems_lits false (group (plus (notChar '}')) :: lits "\x7d")
    (x :: a ++ '}' :: r) "\x7b".toList
  rw [e2] at e3
  simpa [placeholderRe, lits] using e3

/-- A match of `placeholderRe` lies inside the searched text and contains a
`}`. -/
theorem search_ph_mem (s pre p r : Str) (sps : List Str)
    (h : search placeholderRe pre s = some (p, sps, r)) : '}' ∈ s := by
  rw [search_pre] at h
  cases hs : search placeholderRe [] s with
  | none => rw [hs] at h; simp at h
  | some v =>
    obtain ⟨p1, sps1, r1⟩ := v
    obtain ⟨h1, h2, _, _⟩ := search_sound _ _ _ _ _ _ hs
    simp only [placeholderRe, lits, List.append_assoc] at h2
    obtain ⟨tl1, rfl, g1⟩ := forall₂_spanOk_lits _ _ _ h2
    obtain ⟨w, tl2, rfl, _, g2⟩ := forall₂_spanOk_cons _ _ _ g1
    have g3 := forall₂_spanOk_lits_end _ _ g2
    subst g3
    simp only [List.nil_append] at h1
    rw [h1]
    simp

theorem search_ph_none (s pre : Str) (h : '}' ∉ s) : search placeholderRe pre s = none := by
  cases hs : search placeholderRe pre s with
  | none => rfl
  | some v =>
    obtain ⟨p, sps, r⟩ := v
    exact absurd (search_ph_mem _ _ _ _ _ hs) h

/-- The leftmost match of `placeholderRe` in `s` is the first closed,
non-empty brace that the scanner meets. -/
theorem search_ph_scan : ∀ (n : Nat) (s : Str), s.length ≤ n →
    (search placeholderRe [] s = none ∧ scan none s = (s, [])) ∨
    (∃ p nm r, search placeholderRe [] s = some (p, [['{'], nm, ['}']], r) ∧ nm ≠ [] ∧
      '}' ∉ nm ∧ r.length + 2 < s.length ∧ s = p ++ '{' :: (nm ++ '}' :: r) ∧
      scan none s = (p ++ '{' :: '}' :: (scan none r).1, nm :: (scan none r).2)) := by
  intro n
  induction n with
  | zero =>
    intro s hs
    have : s = [] := List.length_eq_zero.mp (Nat.le_zero.mp hs)
    subst this
    left
    exact ⟨by decide, rfl⟩
  | succ n ih =>
    intro s hs
    cases s with
    | nil => left; exact ⟨by decide, rfl⟩
    | cons x xs =>
      have hxs : xs.length ≤ n := by simpa using hs
      by_cases hx : x = '{'
      · subst hx
        rcases first_occurrence '}' xs with hno | ⟨nm, r, rfl, hnm⟩
        · left
          refine ⟨search_ph_none _ _ ?_, ?_⟩
          · simp only [List.mem_cons, not_or]
            exact ⟨by decide, hno⟩
          · simp only [scan, if_true]
            rw [scan_open_unclosed _ _ hno]
            rfl
        · by_cases hne : nm = []
          · subst hne
            have hr : r.length ≤ n := by
              simp only [List.nil_append, List.length_cons] at hxs
              omega
            have hsearch : search placeholderRe [] ('{' :: '}' :: r) =
                (search placeholderRe [] r).map fun v => ('{' :: '}' :: v.1, v.2) := by
              rw [search_cons_of_no_match _ _ _ _ (matchItems_ph_empty r) rfl,
                search_cons_of_no_match _ _ _ _ (matchItems_ph_other '}' r (by decide)) rfl]
              cases search placeholderRe [] r <;> rfl
            have hscan : scan none ('{' :: '}' :: r) =
                ('{' :: '}' :: (scan none r).1, (scan none r).2) := by
              simp [scan]
            rcases ih r hr with ⟨h1, h2⟩ | ⟨p, nm, r2, h1, h2, h3, h4, h5, h6⟩
            · left
              refine ⟨?_, ?_⟩
              · rw [List.nil_append, hsearch, h1]; rfl
              · rw [List.nil_append, hscan, h2]
            · right
              refine ⟨'{' :: '}' :: p, nm, r2, ?_, h2, h3, ?_, ?_, ?_⟩
              · rw [List.nil_append, hsearch, h1]; rfl
              · simp only [List.nil_append, List.length_cons]; omega
              · rw [List.nil_append, h5]; rfl
              · rw [List.nil_append, hscan, h6]; rfl
          · right
            refine ⟨[], nm, r, ?_, hne, hnm, ?_, rfl, ?_⟩
            · exact search_cons_of_match _ _ _ _ _ (matchItems_ph nm r hne hnm)
            · have := List.length_pos.mpr hne
              simp only [List.length_cons, List.length_append]; omega
            · simp only [scan, if_true]
              rw [scan_open_closed _ _ _ hnm]
              simp [hne]
      · have hsearch : search placeholderRe [] (x :: xs) =
            (search placeholderRe [] xs).map fun v => (x :: v.1, v.2) := by
          rw [search_cons_of_no_match _ _ _ _ (matchItems_ph_other x xs hx) rfl]
          rfl
        have hscan : scan none (x :: xs) = (x :: (scan none xs).1, (scan none xs).2) := by
          simp [scan, hx]
        rcases ih xs hxs with ⟨h1, h2⟩ | ⟨p, nm, r2, h1, h2, h3, h4, h5, h6⟩
        · left
          refine ⟨?_, ?_⟩
          · rw [hsearch, h1]; rfl
          · rw [hscan, h2]
        · right
          refine ⟨x :: p, nm, r2, ?_, h2, h3, ?_, ?_, ?_⟩
          · rw [hsearch, h1]; rfl
          · simp only [List.length_cons]; omega
          · rw [h5]; rfl
          · rw [hscan, h6]; rfl

/-- On a match of `placeholderRe` the slice `m[1 : len(m)-1]` is in range
and is the text between the braces. -/
theorem convertRepl_ph (vars : List Str) (nm : Str) :
    convertRepl vars ([['{'], nm, ['}']] : List Str).flatten =
      some ("\x7b\x7d".toList, vars ++ [nm]) := by
  have hm : ([['{'], nm, ['}']] : List Str).flatten = '{' :: (nm ++ ['}']) := by simp
  rw [hm]
  unfold convertRepl slice
  have hlen : ('{' :: (nm ++ ['}'])).length - 1 = nm.length + 1 := by simp
  rw [hlen, if_pos (by simp)]
  simp

theorem replaceAllAux_scan : ∀ (fuel : Nat) (s : Str) (vars : List Str), s.length < fuel →
    replaceAllAux placeholderRe convertRepl fuel vars s =
      some ((scan none s).1, vars ++ (scan none s).2) := by
  intro fuel
  induction fuel with
  | zero => intro s vars h; exact absurd h (Nat.not_lt_zero _)
  | succ fuel ih =>
    intro s vars h
    rcases search_ph_scan s.length s (Nat.le_refl _) with
      ⟨h1, h2⟩ | ⟨p, nm, r, h1, _, _, h4, _, h6⟩
    · simp only [replaceAllAux, h1, h2, List.append_nil]
    · have hr : r.length < fuel := by omega
      simp only [replaceAllAux, h1, convertRepl_ph, ih r (vars ++ [nm]) hr, h6]
      simp

/-- The result of `convertFString` is the result of the one-pass scanner; in
particular `convertFString` always returns. -/
theorem convertFString_eq_scan (content : Str) :
    convertFString content = some (scan none content) := by
  unfold convertFString replaceAllStringFunc
  rw [replaceAllAux_scan _ _ _ (Nat.lt_succ_self _)]
  simp

/-! ## Templates, placeholders and markers -/

theorem scan_template : ∀ (segs : List (Str × Str)) (s0 : Str), '{' ∉ s0 →
    (∀ seg ∈ segs, seg.1 ≠ [] ∧ '}' ∉ seg.1 ∧ '{' ∉ seg.2) →
    scan none (template s0 segs) = (positional s0 segs, segs.map Prod.fst) := by
  intro segs
  induction segs with
  | nil =>
    intro s0 h0 _
    have := scan_outside_skip s0 [] h0
    simpa [template, positional, scan] using this
  | cons seg rest ih =>
    intro s0 h0 h
    obtain ⟨h1, h2, h3⟩ := h seg (by simp)
    have hrest := ih seg.2 h3 (fun sg hsg => h sg (by simp [hsg]))
    have e : template s0 (seg :: rest) = s0 ++ '{' :: (seg.1 ++ '}' :: template seg.2 rest) := by
      simp [template]
    rw [e, scan_outside_skip _ _ h0]
    simp only [scan, if_true]
    rw [scan_open_closed _ _ _ h2, hrest]
    simp [positional, h1]

/-- C7. For a template `s0{n1}s1...{nk}sk` in which no `si` contains `{` and
every `ni` is non-empty and without `}`, `convertFString` returns the template
`s0{}s1...{}sk` and the names `n1, ..., nk`, in this order, duplicates kept. -/
theorem convertFString_template (s0 : Str) (segs : List (Str × Str)) (h0 : '{' ∉ s0)
    (h : ∀ seg ∈ segs, seg.1 ≠ [] ∧ '}' ∉ seg.1 ∧ '{' ∉ seg.2) :
    convertFString (template s0 segs) = some (positional s0 segs, segs.map Prod.fst) := by
  rw [convertFString_eq_scan, scan_template segs s0 h0 h]

theorem convertFString_template_witness :
    convertFString (template "Hello ".toList
        [("n".toList, " and ".toList), ("m".toList, ", ".toList), ("n".toList, "!".toList)]) =
      some (positional "Hello ".toList
        [("n".toList, " and ".toList), ("m".toList, ", ".toList), ("n".toList, "!".toList)],
        [("n".toList, " and ".toList), ("m".toList, ", ".toList),
          ("n".toList, "!".toList)].map Prod.fst) :=
  convertFString_template "Hello ".toList
    [("n".toList, " and ".toList), ("m".toList, ", ".toList), ("n".toList, "!".toList)]
    (by decide) (by decide)

theorem scan_names_length : ∀ (s : Str) (st : Option Str),
    (scan st s).2.length = countPlaceholders (st.map List.length) s := by
  intro s
  induction s with
  | nil => intro st; cases st <;> rfl
  | cons x xs ih =>
    intro st
    cases st with
    | none =>
      by_cases hx : x = '{'
      · simp only [scan, countPlaceholders, Option.map_none', hx, if_true]
        exact ih (some [])
      · simp only [scan, countPlaceholders, Option.map_none', hx, if_false]
        exact ih none
    | some buf =>
      by_cases hx : x = '}'
      · simp only [scan, countPlaceholders, Option.map_some', hx, if_true]
        have := ih none
        simp only [Option.map_none'] at this
        by_cases hb : buf = []
        · simp [hb, this]
        · have hl : buf.length ≠ 0 := fun e => hb (List.length_eq_zero.mp e)
          simp [hb, hl, this, Nat.add_comm]
      · simp only [scan, countPlaceholders, Option.map_some', hx, if_false]
        have := ih (some (buf ++ [x]))
        simpa using this

theorem countMarkers_cons_other (x : Char) (l : Str) (hx : x ≠ '{') :
    countMarkers (x :: l) = countMarkers l := by
  have : ('{' == x) = false := by
    rw [beq_eq_false_iff_ne]; exact fun e => hx e.symm
  simp [countMarkers, List.isPrefixOf, this]

theorem countMarkers_marker (l : Str) : countMarkers ('{' :: '}' :: l) = 1 + countMarkers l := by
  rw [countMarkers, countMarkers_cons_other '}' l (by decide)]
  simp [List.isPrefixOf]

theorem countMarkers_append_ge (a b : Str) : countMarkers b ≤ countMarkers (a ++ b) := by
  induction a with
  | nil => exact Nat.le_refl _
  | cons x a ih =>
    simp only [List.cons_append, countMarkers, List.append_eq]
    omega

/-- The markers of the output: at least one for every name, and no other when
the text read so far (`{` and `buf` inside a brace) and the rest hold none. -/
theorem scan_markers : ∀ (s : Str) (st : Option Str),
    (scan st s).2.length ≤ countMarkers (scan st s).1 ∧
      (countMarkers (match st with
          | none => s
          | some buf => '{' :: (buf ++ s)) = 0 →
        countMarkers (scan st s).1 = (scan st s).2.length) := by
  intro s
  induction s with
  | nil =>
    intro st
    cases st with
    | none => simp [scan, countMarkers]
    | some buf => simp [scan]
  | cons x xs ih =>
    intro st
    cases st with
    | none =>
      by_cases hx : x = '{'
      · subst hx
        simp only [scan, if_true]
        simpa using ih (some [])
      · simp only [scan, hx, if_false, countMarkers_cons_other x _ hx]
        simpa using ih none
    | some buf =>
      by_cases hx : x = '}'
      · subst hx
        obtain ⟨h1, h2⟩ := ih none
        simp only at h2
        simp only [scan, if_true, countMarkers_marker]
        by_cases hb : buf = []
        · subst hb
          simp only [if_true, List.nil_append, countMarkers_marker]
          exact ⟨by omega, fun h => by omega⟩
        · simp only [hb, if_false, List.length_cons]
          refine ⟨by omega, fun h => ?_⟩
          have h3 : countMarkers xs = 0 := by
            have := countMarkers_append_ge ('{' :: (buf ++ ['}'])) xs
            simp only [List.cons_append, List.append_assoc, List.singleton_append,
              List.nil_append] at this
            simp only at h
            omega
          have := h2 h3
          omega
      · simp only [scan, hx, if_false]
        have := ih (some (buf ++ [x]))
        simpa using this

/-- C8 (amended). With N the number of placeholders of the template,
`convertFString` returns exactly N names; the template it returns holds at
least N markers `{}`, and exactly N when the template it was given holds no
`{}`. -/
theorem convertFString_counts (s : Str) :
    ∃ t names, convertFString s = some (t, names) ∧ names.length = placeholderCount s ∧
      placeholderCount s ≤ countMarkers t ∧
      (countMarkers s = 0 → countMarkers t = placeholderCount s) := by
  refine ⟨(scan none s).1, (scan none s).2, convertFString_eq_scan s, ?_, ?_, ?_⟩
  · exact scan_names_length s none
  · have := scan_names_length s none
    simp only [Option.map_none'] at this
    rw [placeholderCount, ← this]
    exact (scan_markers s none).1
  · intro h
    have := scan_names_length s none
    simp only [Option.map_none'] at this
    rw [placeholderCount, ← this]
    exact (scan_markers s none).2 h

theorem convertFString_counts_witness :
    countMarkers "a\x7bx\x7db\x7by\x7d".toList = 0 ∧
      ∃ t names, convertFString "a\x7bx\x7db\x7by\x7d".toList = some (t, names) ∧
        names.length = placeholderCount "a\x7bx\x7db\x7by\x7d".toList ∧
        placeholderCount "a\x7bx\x7db\x7by\x7d".toList ≤ countMarkers t ∧
        (countMarkers "a\x7bx\x7db\x7by\x7d".toList = 0 →
          countMarkers t = placeholderCount "a\x7bx\x7db\x7by\x7d".toList) :=
  ⟨by decide, convertFString_counts "a\x7bx\x7db\x7by\x7d".toList⟩

/-- C8, counterexample. The template `{}` has no placeholder, and
`convertFString` returns no name for it, but the template it returns, `{}`
itself, holds one marker. -/
theorem convertFString_counts_marker :
    placeholderCount "\x7b\x7d".toList = 0 ∧
      convertFString "\x7b\x7d".toList = some ("\x7b\x7d".toList, []) ∧
      countMarkers "\x7b\x7d".toList ≠ placeholderCount "\x7b\x7d".toList := by
  decide

/-- On the templates of C7 the count of placeholders is the number of
`{ni}`. -/
theorem placeholderCount_template (s0 : Str) (segs : List (Str × Str)) (h0 : '{' ∉ s0)
    (h : ∀ seg ∈ segs, seg.1 ≠ [] ∧ '}' ∉ seg.1 ∧ '{' ∉ seg.2) :
    placeholderCount (template s0 segs) = segs.length := by
  have := scan_names_length (template s0 segs) none
  simp only [Option.map_none'] at this
  rw [placeholderCount, ← this, scan_template segs s0 h0 h]
  simp

/-- Scanning the output of a scan changes nothing and finds no name. -/
theorem scan_scan : ∀ (s : Str) (st : Option Str),
    (∀ buf, st = some buf → '}' ∉ buf) →
    scan none (scan st s).1 = ((scan st s).1, []) := by
  intro s
  induction s with
  | nil =>
    intro st hst
    cases st with
    | none => rfl
    | some buf =>
      simp only [scan, if_true]
      rw [scan_open_unclosed _ _ (hst buf rfl)]
      rfl
  | cons x xs ih =>
    intro st hst
    cases st with
    | none =>
      by_cases hx : x = '{'
      · subst hx
        simp only [scan, if_true]
        exact ih (some []) (by intro buf hb; cases hb; simp)
      · simp only [scan, hx, if_false]
        rw [ih none (by intro buf hb; cases hb)]
    | some buf =>
      by_cases hx : x = '}'
      · subst hx
        simp only [scan, if_true]
        rw [ih none (by intro buf hb; cases hb)]
      · simp only [scan, hx, if_false]
        apply ih
        intro b hb
        cases hb
        simp only [List.mem_append, List.mem_singleton, not_or]
        exact ⟨hst buf rfl, fun e => hx e.symm⟩

/-- A text without placeholder is scanned to itself. -/
theorem scan_of_count_zero : ∀ (s : Str) (st : Option Str),
    countPlaceholders (st.map List.length) s = 0 →
    scan st s = (match st with
      | none => s
      | some buf => '{' :: (buf ++ s), []) := by
  intro s
  induction s with
  | nil =>
    intro st _
    cases st with
    | none => rfl
    | some buf => simp [scan]
  | cons x xs ih =>
    intro st h
    cases st with
    | none =>
      by_cases hx : x = '{'
      · subst hx
        simp only [countPlaceholders, Option.map_none', if_true] at h
        simp only [scan, if_true]
        rw [ih (some []) h]
        rfl
      · simp only [countPlaceholders, Option.map_none', hx, if_false] at h
        simp only [scan, hx, if_false]
        rw [ih none h]
    | some buf =>
      by_cases hx : x = '}'
      · subst hx
        simp only [countPlaceholders, Option.map_some', if_true] at h
        have hk : buf.length = 0 := by
          by_contra hk
          simp [hk] at h
        have hb : buf = [] := List.length_eq_zero.mp hk
        subst hb
        have h2 : countPlaceholders none xs = 0 := by simpa using h
        simp only [scan, if_true]
        rw [ih none h2]
        rfl
      · simp only [countPlaceholders, Option.map_some', hx, if_false] at h
        simp only [scan, hx, if_false]
        have h2 : countPlaceholders (Option.map List.length (some (buf ++ [x]))) xs = 0 := by
          simpa using h
        rw [ih (some (buf ++ [x])) h2]
        simp

/-- C9. The template that `convertFString` returns holds no placeholder:
`convertFString` applied to it returns it unchanged with no name. In particular
a template without placeholder is returned unchanged with no name. -/
theorem convertFString_idempotent (s : Str) :
    ∃ t names, convertFString s = some (t, names) ∧ placeholderCount t = 0 ∧
      convertFString t = some (t, []) ∧
      (placeholderCount s = 0 → t = s ∧ names = []) := by
  have h1 := scan_scan s none (by intro buf hb; cases hb)
  refine ⟨(scan none s).1, (scan none s).2, convertFString_eq_scan s, ?_, ?_, ?_⟩
  · have := scan_names_length (scan none s).1 none
    simp only [Option.map_none'] at this
    rw [placeholderCount, ← this, h1]
    rfl
  · rw [convertFString_eq_scan, h1]
  · intro h
    have := scan_of_count_zero s none h
    simp only at this
    rw [this]
    exact ⟨rfl, rfl⟩

theorem convertFString_idempotent_witness :
    placeholderCount "\x7b\x7da\x7bb".toList = 0 ∧
      ∃ t names, convertFString "\x7b\x7da\x7bb".toList = some (t, names) ∧
        placeholderCount t = 0 ∧ convertFString t = some (t, []) ∧
        (placeholderCount "\x7b\x7da\x7bb".toList = 0 →
          t = "\x7b\x7da\x7bb".toList ∧ names = []) :=
  ⟨by decide, convertFString_idempotent "\x7b\x7da\x7bb".toList⟩

/-! ## `translateLine` always returns -/

theorem handleFString_total (tbl : VarExprs) (line : Str) :
    ∃ out tbl1, handleFString tbl line = some (out, tbl1) := by
  unfold handleFString
  simp only
  split
  · rename_i h3
    match hms : findStringSubmatch assignRe line, h3 with
    | [_, a, b], _ => exact ⟨_, _, rfl⟩
  · split
    · exact ⟨_, _, rfl⟩
    · rename_i h2
      match hms : findStringSubmatch fStrRe line, h2 with
      | [], h2 => simp at h2
      | [_], h2 => simp at h2
      | m0 :: content :: _, _ =>
        simp only [convertFString_eq_scan]
        split <;> exact ⟨_, _, rfl⟩

theorem translateLine_total (tbl : VarExprs) (line : Str) :
    ∃ out tbl1, translateLine tbl line = some (out, tbl1) := by
  unfold translateLine
  simp only
  split
  · rename_i h2
    match hms : findStringSubmatch printVarRe (trimSpace line), h2 with
    | [_, v], _ => exact ⟨_, _, rfl⟩
  · have hr : ∃ l t, (if (contains (trimSpace line) "f\"".toList ||
          hasPrefix (trimSpace line) "print(f".toList) = true
        then handleFString tbl (trimSpace line) else some (trimSpace line, tbl)) = some (l, t) := by
      split
      · exact handleFString_total tbl _
      · exact ⟨_, _, rfl⟩
    obtain ⟨l, t, hr⟩ := hr
    rw [hr]
    simp only
    rcases hq : isAssignment l with ⟨n, e, b⟩
    cases b
    · simp only
      split <;> exact ⟨_, _, rfl⟩
    · exact ⟨_, _, rfl⟩

theorem translateLine_trim (tbl : VarExprs) (line : Str) :
    translateLine tbl (trimSpace line) = translateLine tbl line := by
  simp only [translateLine, trimSpace_idem]

/-! ## The driver on one function block -/

theorem splitAux_single (c : Char) (b : Str) : ∀ (a cur : Str) (fuel : Nat), c ∉ a →
    splitAux [c] (a.length + 1 + fuel) cur (a ++ c :: b) =
      (cur ++ a) :: splitAux [c] fuel [] b := by
  intro a
  induction a with
  | nil =>
    intro cur fuel _
    have : ([] : Str).length + 1 + fuel = fuel + 1 := by simp [Nat.add_comm]
    rw [this]
    simp [splitAux, List.isPrefixOf]
  | cons x a ih =>
    intro cur fuel h
    simp only [List.mem_cons, not_or] at h
    have hx : (c == x) = false := by
      rw [beq_eq_false_iff_ne]; exact h.1
    have : (x :: a).length + 1 + fuel = (a.length + 1 + fuel) + 1 := by
      simp only [List.length_cons]; omega
    rw [this]
    simp only [List.cons_append, splitAux, List.isPrefixOf, hx, Bool.false_and,
      Bool.false_eq_true, if_false, List.append_eq]
    rw [ih _ _ h.2]
    simp

/-- `Split` at a one-character separator: the first part is the text before
the first occurrence. -/
theorem split_single (c : Char) (a b : Str) (h : c ∉ a) :
    split (a ++ c :: b) [c] = a :: split b [c] := by
  unfold split
  have : (a ++ c :: b).length = a.length + 1 + b.length := by
    simp only [List.length_append, List.length_cons]; omega
  rw [this, splitAux_single c b a [] b.length h]
  rfl

theorem functionOpen_ne_none (t : Str) : functionOpen t ≠ none := by
  unfold functionOpen
  split
  · have := splitAux_ne_nil " ".toList t.length [] t
    unfold split
    split
    · simp
    · rename_i heq
      exact absurd heq this
  · simp

theorem run_append : ∀ (a b : List Str) (st : Driver),
    run st (a ++ b) = (run st a).bind fun st1 => run st1 b := by
  intro a
  induction a with
  | nil => intro b st; rfl
  | cons l a ih =>
    intro b st
    simp only [List.cons_append, run]
    cases step st l with
    | none => rfl
    | some st1 => exact ih b st1

theorem trimSpace_header (f : Str) (hf : ∀ c ∈ f, isSpace c = false) :
    trimSpace (f ++ "() \x7b".toList) = f ++ "() \x7b".toList := by
  have := trimSpace_pad [] (f ++ "() \x7b".toList) [] (by simp) (by simp)
    (by
      intro c hc
      cases f with
      | nil =>
        have : '(' = c := by simpa using hc
        subst this; decide
      | cons x f =>
        have : x = c := by simpa using hc
        subst this
        exact hf x (by simp))
    (by
      intro c hc
      rw [List.getLast?_append_of_ne_nil _ (by decide)] at hc
      have : '{' = c := by simpa using hc
      subst this; decide)
  simpa using this

/-- The header line `f() {` opens a function: one line `fn f() {` is written
and the flag is set. -/
theorem step_header (st : Driver) (f : Str) (hf : ∀ c ∈ f, isSpace c = false)
    (hp : '(' ∉ f) :
    step st (f ++ "() \x7b".toList) =
      some ⟨st.rustCode ++ ["fn ".toList ++ f ++ "() \x7b".toList], true, st.varExprs⟩ := by
  have hblank : ' ' ∉ f ++ "()".toList := by
    simp only [List.mem_append, not_or]
    exact ⟨fun h => absurd (hf _ h) (by decide), by decide⟩
  have h1 : split (f ++ "() \x7b".toList) " ".toList = [f ++ "()".toList, "\x7b".toList] := by
    have e : f ++ "() \x7b".toList = (f ++ "()".toList) ++ ' ' :: "\x7b".toList := by simp
    rw [e]
    have := split_single ' ' (f ++ "()".toList) "\x7b".toList hblank
    rw [show " ".toList = [' '] from rfl, this]
    rfl
  have h2 : split (f ++ "() \x7b".toList) "(".toList = [f, ") \x7b".toList] := by
    have := split_single '(' f ") \x7b".toList hp
    rw [show "(".toList = ['('] from rfl, show f ++ "() \x7b".toList = f ++ '(' :: ") \x7b".toList from rfl,
      this]
    rfl
  have h3 : hasSuffix (f ++ "() \x7b".toList) "\x7b".toList = true := by
    rw [hasSuffix_iff]; exact ⟨f ++ "() ".toList, by simp⟩
  have h4 : hasSuffix (f ++ "()".toList) "()".toList = true := by
    rw [hasSuffix_iff]; exact ⟨f, rfl⟩
  have h5 : functionOpen (f ++ "() \x7b".toList) = some true := by
    unfold functionOpen
    rw [if_pos h3, h1]
    simp only [h4]
  unfold step
  simp only [trimSpace_header f hf, h5, h2]

theorem step_body (st : Driver) (l o : Str) (t1 : VarExprs) (hin : st.inFunction = true)
    (hopen : functionOpen (trimSpace l) = some false) (hclose : trimSpace l ≠ "\x7d".toList)
    (ht : translateLine st.varExprs l = some (o, t1)) :
    step st l = some ⟨st.rustCode ++ ["    ".toList ++ o], true, t1⟩ := by
  unfold step
  have hne : (trimSpace l == "\x7d".toList) = false := by
    rw [beq_eq_false_iff_ne]; exact hclose
  simp only [hopen, hin, hne, Bool.and_false, Bool.false_eq_true, if_false, if_true,
    translateLine_trim, ht]
  rfl

theorem step_close (st : Driver) (hin : st.inFunction = true) :
    step st "\x7d".toList = some ⟨st.rustCode ++ ["\x7d".toList], false, st.varExprs⟩ := by
  unfold step
  have h1 : trimSpace "\x7d".toList = "\x7d".toList := by decide
  have h2 : functionOpen "\x7d".toList = some false := by decide
  simp only [h1, h2, hin, Bool.true_and, beq_self_eq_true, if_true]

theorem run_body : ∀ (body : List Str) (st : Driver), st.inFunction = true →
    (∀ l ∈ body, functionOpen (trimSpace l) = some false ∧ trimSpace l ≠ "\x7d".toList) →
    ∃ outs tbl1, translateLines st.varExprs body = some (outs, tbl1) ∧
      run st body =
        some ⟨st.rustCode ++ outs.map (fun o => "    ".toList ++ o), true, tbl1⟩ := by
  intro body
  induction body with
  | nil =>
    intro st hin _
    refine ⟨[], st.varExprs, rfl, ?_⟩
    simp only [run, List.map_nil, List.append_nil]
    rw [← hin]
  | cons l body ih =>
    intro st hin h
    obtain ⟨o, t1, ht⟩ := translateLine_total st.varExprs l
    obtain ⟨h1, h2⟩ := h l (by simp)
    have hs := step_body st l o t1 hin h1 h2 ht
    obtain ⟨outs, tbl1, e1, e2⟩ :=
      ih ⟨st.rustCode ++ ["    ".toList ++ o], true, t1⟩ rfl (fun x hx => h x (by simp [hx]))
    refine ⟨o :: outs, tbl1, ?_, ?_⟩
    · simp only [translateLines, ht]
      simp only at e1
      rw [e1]
    · simp only [run, hs, e2]
      simp

/-- The rounds of the loop for the delivered lines of one function block:
`f() {`, body lines none of which is, once trimmed, a function-open line or a
lone `}`, and `}`. -/
theorem run_function_block (tbl : VarExprs) (f : Str) (body : List Str)
    (hf : ∀ c ∈ f, isSpace c = false) (hp : '(' ∉ f)
    (hbody : ∀ l ∈ body, functionOpen (trimSpace l) = some false ∧ trimSpace l ≠ "\x7d".toList) :
    ∃ outs tbl1, translateLines tbl body = some (outs, tbl1) ∧
      run ⟨[], false, tbl⟩ ([f ++ "() \x7b".toList] ++ body ++ ["\x7d".toList]) =
        some ⟨["fn ".toList ++ f ++ "() \x7b".toList] ++
          outs.map (fun o => "    ".toList ++ o) ++ ["\x7d".toList], false, tbl1⟩ := by
  obtain ⟨outs, tbl1, e1, e2⟩ :=
    run_body body ⟨["fn ".toList ++ f ++ "() \x7b".toList], true, tbl⟩ rfl hbody
  refine ⟨outs, tbl1, e1, ?_⟩
  rw [List.append_assoc, run_append]
  simp only [run, step_header _ f hf hp, List.nil_append, Option.bind]
  rw [run_append, e2]
  simp only [Option.bind, run]
  rw [step_close _ rfl]

/-! ## Translating a translated line again -/

theorem translateLine_of_step (tbl tbl1 : VarExprs) (line l : Str)
    (hp : ¬ isPrintVar (trimSpace line))
    (hl : fStringStep tbl (trimSpace line) = some (l, tbl1)) :
    translateLine tbl line = some (lastRules l, tbl1) := by
  rw [translateLine_of_not_printVar tbl line hp]
  unfold fStringStep at hl
  rw [hl]
  rfl

theorem replaceFirst_head (t old new : Str) (d c : Char) (hnew : new.head? = some d)
    (h : (replaceFirst t old new).head? = some c) : c = d ∨ t.head? = some c := by
  obtain ⟨nw, rfl⟩ : ∃ nw, new = d :: nw := by
    cases new with
    | nil => simp at hnew
    | cons y nw => simp at hnew; exact ⟨nw, by rw [hnew]⟩
  cases t with
  | nil =>
    simp only [replaceFirst] at h
    split at h
    · left; simpa using h.symm
    · simp at h
  | cons x xs =>
    simp only [replaceFirst] at h
    split at h
    · left; simpa using h.symm
    · right; simpa using h

theorem handleFString_head (tbl tbl1 : VarExprs) (t l : Str)
    (ht : ∀ c, t.head? = some c → isSpace c = false)
    (hl : handleFString tbl t = some (l, tbl1)) :
    ∀ c, l.head? = some c → isSpace c = false := by
  intro c hc
  unfold handleFString at hl
  simp only at hl
  split at hl
  · rename_i h3
    match hms : findStringSubmatch assignRe t, h3 with
    | [_, a, b], _ =>
      rw [hms] at hl
      simp only [Option.some.injEq, Prod.mk.injEq] at hl
      rw [← hl.1] at hc
      have : 'l' = c := by simpa using hc
      subst this; decide
  · split at hl
    · simp only [Option.some.injEq, Prod.mk.injEq] at hl
      rw [← hl.1] at hc
      exact ht c hc
    · rename_i h2
      match hms : findStringSubmatch fStrRe t, h2 with
      | [], h2 => simp at h2
      | [_], h2 => simp at h2
      | m0 :: content :: _, _ =>
        rw [hms] at hl
        simp only [convertFString_eq_scan] at hl
        split at hl
        · simp only [Option.some.injEq, Prod.mk.injEq] at hl
          rw [← hl.1] at hc
          have : 'p' = c := by simpa using hc
          subst this; decide
        · simp only [Option.some.injEq, Prod.mk.injEq] at hl
          rw [← hl.1] at hc
          rcases replaceFirst_head _ _ _ 'f' c (by simp) hc with h | h
          · subst h; decide
          · exact ht c h

theorem fStringStep_head (tbl tbl1 : VarExprs) (t l : Str)
    (ht : ∀ c, t.head? = some c → isSpace c = false)
    (hl : fStringStep tbl t = some (l, tbl1)) :
    ∀ c, l.head? = some c → isSpace c = false := by
  unfold fStringStep at hl
  split at hl
  · exact handleFString_head tbl tbl1 t l ht hl
  · simp only [Option.some.injEq, Prod.mk.injEq] at hl
    rw [← hl.1]; exact ht

theorem isPrintVar_last (t : Str) (h : isPrintVar t) : t.getLast? = some ')' := by
  obtain ⟨w, _, _, rfl⟩ := h
  rw [List.getLast?_append_of_ne_nil _ (by decide)]
  rfl

/-- C10 (amended). Let `translateLine` rewrite a line by the assignment rule
or by the bare-call rule: the `println!(<word>)` rule does not apply, and the
line `l` that reaches the last rules is recognised by `isAssignment` or ends
with `()`. If the output holds no interpolated literal and is not cut by
`" be "` into exactly two parts, translating the output returns it unchanged. -/
theorem translateLine_idempotent (tbl tbl1 tbl2 tbl3 : VarExprs) (s l out : Str)
    (hp : ¬ isPrintVar (trimSpace s))
    (hl : fStringStep tbl (trimSpace s) = some (l, tbl1))
    (hrule : (isAssignment l).2.2 = true ∨ hasSuffix l "()".toList = true)
    (hout : translateLine tbl s = some (out, tbl2))
    (h1 : ¬ hasInterpolatedLiteral out)
    (h2 : (split out " be ".toList).length ≠ 2) :
    translateLine tbl3 out = some (out, tbl3) := by
  have hlast := translateLine_of_step tbl tbl1 s l hp hl
  rw [hlast] at hout
  simp only [Option.some.injEq, Prod.mk.injEq] at hout
  have hout1 : lastRules l = out := hout.1
  have hhead := fStringStep_head tbl tbl1 _ l (trimSpace_head s) hl
  have hshape : (∀ c, out.head? = some c → isSpace c = false) ∧ out.getLast? = some ';' := by
    rw [← hout1]
    unfold lastRules
    rcases hq : isAssignment l with ⟨n, e, b⟩
    cases b
    · rw [hq] at hrule
      have hs : hasSuffix l "()".toList = true := by simpa using hrule
      simp only [hs, if_true]
      refine ⟨?_, ?_⟩
      · intro c hc
        have hne : l ≠ [] := by
          rintro rfl
          revert hs; decide
        obtain ⟨x, xs, rfl⟩ := List.exists_cons_of_ne_nil hne
        exact hhead c (by simpa using hc)
      · rw [List.getLast?_append_of_ne_nil _ (by decide)]; rfl
    · simp only
      refine ⟨?_, ?_⟩
      · intro c hc
        have : 'l' = c := by simpa using hc
        subst this; decide
      · rw [List.getLast?_append_of_ne_nil _ (by decide)]; rfl
  have htrim : trimSpace out = out := by
    have := trimSpace_pad [] out [] (by simp) (by simp) hshape.1
      (by
        intro c hc
        rw [hshape.2] at hc
        have : ';' = c := by simpa using hc
        subst this; decide)
    simpa using this
  have hpv : ¬ isPrintVar (trimSpace out) := by
    rw [htrim]
    intro hpv
    have := isPrintVar_last _ hpv
    rw [hshape.2] at this
    revert this; decide
  rw [translateLine_plain tbl3 out hpv (by rw [htrim]; exact h1), htrim,
    isAssignment_of_split_length _ h2]
  simp only [hasSuffix_call_of_last _ ';' hshape.2 (by decide), Bool.false_eq_true, if_false]

theorem translateLine_idempotent_witness :
    translateLine VarExprs.empty "let x = foo();".toList =
      some ("let x = foo();".toList, VarExprs.empty) :=
  translateLine_idempotent VarExprs.empty VarExprs.empty VarExprs.empty VarExprs.empty
    " x be foo()".toList "x be foo()".toList "let x = foo();".toList
    (not_isPrintVar_of_start _ (by decide)) (by rfl) (Or.inl (by decide)) (by rfl)
    (no_literal_of_not_contains _ (by decide)) (by decide)

/-- C10, counterexample. The line `be be 5` is rewritten by the assignment
rule to `let be = 5;`, and translating that output gives `let let = = 5;;`. -/
theorem translateLine_not_idempotent :
    isAssignment (trimSpace "be be 5".toList) = ("be".toList, "5".toList, true) ∧
      (translateLine VarExprs.empty "be be 5".toList).map Prod.fst =
        some "let be = 5;".toList ∧
      (translateLine VarExprs.empty "let be = 5;".toList).map Prod.fst =
        some "let let = = 5;;".toList ∧
      (translateLine VarExprs.empty "let be = 5;".toList).map Prod.fst ≠
        (translateLine VarExprs.empty "be be 5".toList).map Prod.fst := by
  decide

/-! ## No run-time failure -/

theorem split_ne_nil (s sep : Str) : ∃ first rest, split s sep = first :: rest := by
  cases h : split s sep with
  | nil => exact absurd h (splitAux_ne_nil sep s.length [] s)
  | cons first rest => exact ⟨first, rest, rfl⟩

theorem step_total (st : Driver) (line : Str) : ∃ st1, step st line = some st1 := by
  unfold step
  simp only
  cases hfo : functionOpen (trimSpace line) with
  | none => exact absurd hfo (functionOpen_ne_none _)
  | some b =>
    cases b
    · simp only
      obtain ⟨out, tbl1, ht⟩ := translateLine_total st.varExprs (trimSpace line)
      rw [ht]
      split
      · exact ⟨_, rfl⟩
      · split <;> exact ⟨_, rfl⟩
    · simp only
      obtain ⟨first, rest, hs⟩ := split_ne_nil (trimSpace line) "(".toList
      rw [hs]
      exact ⟨_, rfl⟩

/-- Every match of `placeholderRe` is long enough for the slice
`m[1 : len(m)-1]`. -/
theorem slice_of_placeholder_match (src pre rest : Str) (sps : List Str)
    (h : search placeholderRe [] src = some (pre, sps, rest)) :
    ∃ nm, slice sps.flatten 1 (sps.flatten.length - 1) = some nm := by
  rcases search_ph_scan src.length src (Nat.le_refl _) with ⟨h1, _⟩ | ⟨p, nm, r, h1, _⟩
  · rw [h1] at h; cases h
  · rw [h1] at h
    simp only [Option.some.injEq, Prod.mk.injEq] at h
    obtain ⟨_, h2, _⟩ := h
    subst h2
    have := convertRepl_ph [] nm
    unfold convertRepl at this
    cases hs : slice ([['{'], nm, ['}']] : List Str).flatten 1
        (([['{'], nm, ['}']] : List Str).flatten.length - 1) with
    | none => rw [hs] at this; cases this
    | some v => exact ⟨v, rfl⟩

/-- C11. `translateLine` and the step of the driver return a result for every
line, every binding table and either block state; `convertFString` returns for
every template, the slice `m[1 : len(m)-1]` is in range on every match of the
placeholder pattern, and `strings.Split` always has an element 0. -/
theorem translateLine_step_total :
    (∀ (tbl : VarExprs) (line : Str), ∃ out tbl1, translateLine tbl line = some (out, tbl1)) ∧
      (∀ (st : Driver) (line : Str), ∃ st1, step st line = some st1) ∧
      (∀ content : Str, ∃ formatted vars, convertFString content = some (formatted, vars)) ∧
      (∀ (src pre rest : Str) (sps : List Str),
        search placeholderRe [] src = some (pre, sps, rest) →
          ∃ nm, slice sps.flatten 1 (sps.flatten.length - 1) = some nm) ∧
      (∀ s sep : Str, ∃ first rest, split s sep = first :: rest) :=
  ⟨translateLine_total, step_total,
    fun content => ⟨_, _, convertFString_eq_scan content⟩,
    slice_of_placeholder_match, split_ne_nil⟩

theorem translateLine_step_total_witness :
    (∃ out tbl1, translateLine VarExprs.empty "a = f\"\x7bb".toList = some (out, tbl1)) ∧
      (∃ st1, step ⟨[], true, VarExprs.empty⟩ "\x7b".toList = some st1) ∧
      (∃ nm, slice ([['{'], ['n'], ['}']] : List Str).flatten 1
        (([['{'], ['n'], ['}']] : List Str).flatten.length - 1) = some nm) :=
  ⟨translateLine_step_total.1 VarExprs.empty "a = f\"\x7bb".toList,
    translateLine_step_total.2.1 ⟨[], true, VarExprs.empty⟩ "\x7b".toList,
    translateLine_step_total.2.2.2.1 "x\x7bn\x7dy".toList "x".toList "y".toList
      [['{'], ['n'], ['}']] (by decide)⟩

/-! ## The dispatcher after `handleFString` -/

/-- C12 (amended). For a trimmed line that contains `f"` and is not
`println!(<word>)`, `translateLine` passes the result `l` of `handleFString` on
to the remaining rules: the assignment rule if `isAssignment` recognises `l`,
else the bare-call rule if `l` ends with `()`, and only otherwise the result
is `l` itself. The binding table is the one `handleFString` returns. -/
theorem translateLine_after_handleFString (tbl : VarExprs) (t : Str)
    (ht : trimSpace t = t) (hc : contains t "f\"".toList = true) (hp : ¬ isPrintVar t) :
    ∃ l tbl1 out, handleFString tbl t = some (l, tbl1) ∧
      translateLine tbl t = some (out, tbl1) ∧
      (∀ n e, isAssignment l = (n, e, true) →
        out = "let ".toList ++ n ++ " = ".toList ++ e ++ ";".toList) ∧
      ((isAssignment l).2.2 = false → hasSuffix l "()".toList = true →
        out = l ++ ";".toList) ∧
      ((isAssignment l).2.2 = false → hasSuffix l "()".toList = false → out = l) := by
  obtain ⟨l, tbl1, hl⟩ := handleFString_total tbl t
  have hstep : fStringStep tbl (trimSpace t) = some (l, tbl1) := by
    unfold fStringStep
    rw [ht, hc, Bool.true_or, if_pos rfl, hl]
  have hp1 : ¬ isPrintVar (trimSpace t) := by rw [ht]; exact hp
  refine ⟨l, tbl1, lastRules l, hl, translateLine_of_step tbl tbl1 t l hp1 hstep, ?_, ?_, ?_⟩
  · intro n e h
    unfold lastRules
    rw [h]
  · intro h1 h2
    unfold lastRules
    rcases hq : isAssignment l with ⟨n, e, b⟩
    rw [hq] at h1
    simp only at h1
    subst h1
    simp only [h2, if_true]
  · intro h1 h2
    unfold lastRules
    rcases hq : isAssignment l with ⟨n, e, b⟩
    rw [hq] at h1
    simp only at h1
    subst h1
    simp only [h2, Bool.false_eq_true, if_false]

theorem translateLine_after_handleFString_witness :
    ∃ l tbl1 out, handleFString VarExprs.empty "say(f\"Hi \x7bn\x7d\")".toList = some (l, tbl1) ∧
      translateLine VarExprs.empty "say(f\"Hi \x7bn\x7d\")".toList = some (out, tbl1) ∧
      (∀ n e, isAssignment l = (n, e, true) →
        out = "let ".toList ++ n ++ " = ".toList ++ e ++ ";".toList) ∧
      ((isAssignment l).2.2 = false → hasSuffix l "()".toList = true →
        out = l ++ ";".toList) ∧
      ((isAssignment l).2.2 = false → hasSuffix l "()".toList = false → out = l) :=
  translateLine_after_handleFString VarExprs.empty "say(f\"Hi \x7bn\x7d\")".toList (by decide)
    (by decide) (not_isPrintVar_of_start _ (by decide))

/-- C12, counterexample. The trimmed line `x be f"Hello {n}"` contains `f"`
and does not start with `println!(`; `handleFString` returns
`x be format!("Hello {}", n)`, but `translateLine` applies the assignment rule
to that text and returns `let x = format!("Hello {}", n);`. -/
theorem translateLine_ne_handleFString :
    trimSpace "x be f\"Hello \x7bn\x7d\"".toList = "x be f\"Hello \x7bn\x7d\"".toList ∧
      contains "x be f\"Hello \x7bn\x7d\"".toList "f\"".toList = true ∧
      hasPrefix "x be f\"Hello \x7bn\x7d\"".toList "println!(".toList = false ∧
      (handleFString VarExprs.empty "x be f\"Hello \x7bn\x7d\"".toList).map Prod.fst =
        some "x be format!(\"Hello \x7b\x7d\", n)".toList ∧
      (translateLine VarExprs.empty "x be f\"Hello \x7bn\x7d\"".toList).map Prod.fst =
        some "let x = format!(\"Hello \x7b\x7d\", n);".toList ∧
      (translateLine VarExprs.empty "x be f\"Hello \x7bn\x7d\"".toList).map Prod.fst ≠
        (handleFString VarExprs.empty "x be f\"Hello \x7bn\x7d\"".toList).map Prod.fst := by
  decide

/-! ## The interpolated literal that `handleFString` finds -/

theorem assign_nil_of_no_form (t : Str) (h : ¬ hasAssignForm t) :
    findStringSubmatch assignRe t = [] := by
  apply findStringSubmatch_eq_nil
  cases hs : search assignRe [] t with
  | none => rfl
  | some v =>
    obtain ⟨p, sps, r⟩ := v
    obtain ⟨a, w1, w2, b, h1, h2, h3, h4, h5, h6, h7, _⟩ := assign_sound _ _ _ _ hs
    exact absurd ⟨p, a, w1, w2, b, r, h1, h2, h3, h4, h5, h6, h7⟩ h

theorem matchItems_gstar (eot : Bool) (cls : Char → Bool) (rest : List Item)
    (a b : Str) (res : List Str × Str) (ha : ∀ c ∈ a, cls c = true)
    (hb : ∀ c, b.head? = some c → cls c = false) (hk : matchItems eot rest b = some res) :
    matchItems eot (group (star cls) :: rest) (a ++ b) = some (a :: res.1, res.2) := by
  simp only [matchItems, group, star]
  rw [starLoop_munch cls _ a b res ha hb hk]
  rfl

theorem matchItems_fStr (c q : Str) (hc : '"' ∉ c) :
    matchItems false fStrRe.items ('f' :: '"' :: (c ++ '"' :: q)) =
      some ([['f'], ['"'], c, ['"']], q) := by
  have hcls : ∀ x ∈ c, notChar '"' x = true := by
    intro x hx
    simp only [notChar, bne_iff_ne, ne_eq]
    rintro rfl
    exact hc hx
  have e1 : matchItems false (lits "\"") ('"' :: q) = some ([['"']], q) := by
    simp [matchItems, lits, lit]
  have e2 := matchItems_gstar false (notChar '"') (lits "\"") c ('"' :: q) _ hcls
    (by intro x hx; simp at hx; subst hx; decide) e1
  have e3 := matchItems_lits false (group (star (notChar '"')) :: lits "\"")
    (c ++ '"' :: q) "f\"".toList
  rw [e2] at e3
  simpa [fStrRe, lits] using e3

theorem matchItems_fStr_none (x : Char) (xs : Str) (h : ¬ "f\"".toList <+: x :: xs) :
    matchItems false fStrRe.items (x :: xs) = none := by
  by_cases hx : x = 'f'
  · subst hx
    cases xs with
    | nil => simp [matchItems, fStrRe, lits, lit]
    | cons y ys =>
      by_cases hy : y = '"'
      · subst hy
        exact absurd ⟨ys, rfl⟩ h
      · simp [matchItems, fStrRe, lits, lit, hy]
  · simp [matchItems, fStrRe, lits, lit, hx]

/-- Before the first `f"` of a text no suffix starts with `f"`. -/
theorem no_fquote_start (x : Char) (p rest : Str) (hp : ¬ "f\"".toList <:+: x :: p) :
    ¬ "f\"".toList <+: x :: (p ++ 'f' :: rest) := by
  rintro ⟨u, hu⟩
  apply hp
  cases p with
  | nil =>
    simp only [String.toList, List.cons_append, List.nil_append, List.cons.injEq] at hu
    exact absurd hu.2.1 (by decide)
  | cons y p =>
    simp only [String.toList, List.cons_append, List.nil_append, List.cons.injEq] at hu
    refine ⟨[], p, ?_⟩
    rw [← hu.1, ← hu.2.1]
    rfl

/-- The leftmost match of `fStrRe` starts at the first `f"` and ends at the
next `"`. -/
theorem search_fStr (c q : Str) (hc : '"' ∉ c) : ∀ p : Str, ¬ "f\"".toList <:+: p →
    search fStrRe [] (p ++ 'f' :: '"' :: (c ++ '"' :: q)) =
      some (p, [['f'], ['"'], c, ['"']], q) := by
  intro p
  induction p with
  | nil =>
    intro _
    exact search_cons_of_match _ _ _ _ _ (matchItems_fStr c q hc)
  | cons x p ih =>
    intro hp
    have hp2 : ¬ "f\"".toList <:+: p := fun h => hp (List.infix_cons h)
    rw [List.cons_append, search_cons_of_no_match _ _ _ _
      (matchItems_fStr_none x _ (no_fquote_start x p _ hp)) rfl, ih hp2]
    rfl

theorem findStringSubmatch_fStr (p c q : Str) (hp : ¬ "f\"".toList <:+: p) (hc : '"' ∉ c) :
    findStringSubmatch fStrRe (p ++ "f\"".toList ++ c ++ "\"".toList ++ q) =
      ["f\"".toList ++ c ++ "\"".toList, c] := by
  have e : p ++ "f\"".toList ++ c ++ "\"".toList ++ q = p ++ 'f' :: '"' :: (c ++ '"' :: q) := by
    simp
  rw [e]
  simp only [findStringSubmatch, search_fStr c q hc p hp]
  simp [fStrRe, lits, lit, group, star, captures]

theorem scan_names_ne_nil : ∀ (s : Str) (st : Option Str), ∀ n ∈ (scan st s).2, n ≠ [] := by
  intro s
  induction s with
  | nil => intro st n hn; cases st <;> simp [scan] at hn
  | cons x xs ih =>
    intro st n hn
    cases st with
    | none =>
      by_cases hx : x = '{'
      · simp only [scan, hx, if_true] at hn
        exact ih _ n hn
      · simp only [scan, hx, if_false] at hn
        exact ih _ n hn
    | some buf =>
      by_cases hx : x = '}'
      · simp only [scan, hx, if_true] at hn
        by_cases hb : buf = []
        · simp only [hb, if_true] at hn
          exact ih _ n hn
        · simp only [hb, if_false, List.mem_cons] at hn
          rcases hn with rfl | hn
          · exact hb
          · exact ih _ n hn
      · simp only [scan, hx, if_false] at hn
        exact ih _ n hn

theorem join_eq_nil (vars : List Str) (sep : Str) (h : ∀ n ∈ vars, n ≠ []) :
    join vars sep = [] ↔ vars = [] := by
  constructor
  · intro hj
    cases vars with
    | nil => rfl
    | cons n rest =>
      exfalso
      have hn : n ≠ [] := h n (by simp)
      cases rest with
      | nil => simp [join, List.intercalate, List.intersperse] at hj; exact hn hj
      | cons m rest =>
        simp [join, List.intercalate, List.intersperse] at hj
        exact hn hj.1
  · rintro rfl
    rfl

/-- The text that `handleFString` builds from the names of a template is the
format expression. -/
theorem formatCall_eq (content : Str) :
    "format!(\"".toList ++ (scan none content).1 ++ "\"".toList ++
        ifNotEmpty (join (scan none content).2 ", ".toList) ++ ")".toList =
      formatExpression (scan none content).1 (scan none content).2 := by
  unfold formatExpression ifNotEmpty
  have := join_eq_nil (scan none content).2 ", ".toList (scan_names_ne_nil content none)
  by_cases hv : (scan none content).2 = []
  · rw [if_pos (this.mpr hv), if_pos hv]
  · rw [if_neg (fun h => hv (this.mp h)), if_neg hv]

/-- `handleFString` on a line without the assignment form in which `fStrRe`
finds the literal `m0` with content `content`. -/
theorem handleFString_literal (tbl : VarExprs) (line m0 content : Str)
    (ha : findStringSubmatch assignRe line = [])
    (hf : findStringSubmatch fStrRe line = [m0, content]) :
    handleFString tbl line =
      some (if hasPrefix line "println!(".toList then
          "println!(\"\x7b\x7d\", ".toList ++
            formatExpression (scan none content).1 (scan none content).2 ++ ");".toList
        else replaceFirst line m0
          (formatExpression (scan none content).1 (scan none content).2), tbl) := by
  unfold handleFString
  simp only [ha, hf, convertFString_eq_scan, formatCall_eq]
  rw [if_neg (by decide), if_neg (by simp)]
  split <;> rfl

theorem replaceFirst_at (m new q : Str) : ∀ p : Str, ¬ "f\"".toList <:+: p →
    replaceFirst (p ++ 'f' :: '"' :: (m ++ q)) ('f' :: '"' :: m) new = p ++ new ++ q := by
  intro p
  induction p with
  | nil =>
    intro _
    have hpre : ('f' :: '"' :: m).isPrefixOf ('f' :: '"' :: (m ++ q)) = true := by
      rw [List.isPrefixOf_iff_prefix]
      exact ⟨q, rfl⟩
    simp only [List.nil_append, replaceFirst, hpre, if_true]
    have : ('f' :: '"' :: (m ++ q)) = ('f' :: '"' :: m) ++ q := rfl
    rw [this, List.drop_left]
  | cons x p ih =>
    intro hp
    have hp2 : ¬ "f\"".toList <:+: p := fun h => hp (List.infix_cons h)
    have hpre : ('f' :: '"' :: m).isPrefixOf (x :: (p ++ 'f' :: '"' :: (m ++ q))) = false := by
      rw [Bool.eq_false_iff]
      intro h
      rw [List.isPrefixOf_iff_prefix] at h
      obtain ⟨u, hu⟩ := h
      exact no_fquote_start x p _ hp ⟨m ++ u, by rw [← hu]; rfl⟩
    simp only [List.cons_append, replaceFirst, List.append_eq, hpre, Bool.false_eq_true,
      if_false]
    rw [ih hp2]

theorem no_form_of_no_eq (t : Str) (h : '=' ∉ t) : ¬ hasAssignForm t := by
  rintro ⟨p, a, w1, w2, b, r, _, _, _, _, _, _, rfl⟩
  apply h
  simp

/-- C13. Let a line begin with `println!(`, let its first `f"` come after `p`
and be closed by the next `"`, with `c` between them, and let the line not
hold the single-placeholder assignment form. Then `handleFString` returns
`println!("{}", F);`, where `F` is the format expression of the template and
the names that `convertFString` gives for `c`; the rest of the line is dropped
and the binding table is not touched. -/
theorem handleFString_println (tbl : VarExprs) (p c q : Str)
    (hp : contains p "f\"".toList = false) (hc : '"' ∉ c)
    (hstart : hasPrefix (p ++ "f\"".toList ++ c ++ "\"".toList ++ q) "println!(".toList = true)
    (hform : ¬ hasAssignForm (p ++ "f\"".toList ++ c ++ "\"".toList ++ q)) :
    ∃ t vars, convertFString c = some (t, vars) ∧
      handleFString tbl (p ++ "f\"".toList ++ c ++ "\"".toList ++ q) =
        some ("println!(\"\x7b\x7d\", ".toList ++ formatExpression t vars ++ ");".toList, tbl) := by
  refine ⟨(scan none c).1, (scan none c).2, convertFString_eq_scan c, ?_⟩
  rw [handleFString_literal tbl _ _ c (assign_nil_of_no_form _ hform)
    (findStringSubmatch_fStr p c q ((contains_eq_false_iff _ _).mp hp) hc), if_pos hstart]

theorem handleFString_println_witness :
    ∃ t vars, convertFString "Hi \x7ba\x7d \x7bb\x7d".toList = some (t, vars) ∧
      handleFString VarExprs.empty
          ("println!(".toList ++ "f\"".toList ++ "Hi \x7ba\x7d \x7bb\x7d".toList ++ "\"".toList ++
            ") // f\"x\"".toList) =
        some ("println!(\"\x7b\x7d\", ".toList ++ formatExpression t vars ++ ");".toList,
          VarExprs.empty) :=
  handleFString_println VarExprs.empty "println!(".toList "Hi \x7ba\x7d \x7bb\x7d".toList
    ") // f\"x\"".toList (by decide) (by decide) (by decide) (no_form_of_no_eq _ (by decide))

/-- C14. Let a line not begin with `println!(`, let its first `f"` come after
`p` and be closed by the next `"`, with `c` between them and `q` after it, and
let the line not hold the single-placeholder assignment form. Then
`handleFString` returns `p ++ F ++ q`, where `F` is the format expression of
the template and the names that `convertFString` gives for `c`: only the
leftmost literal is replaced, and the binding table is not touched. -/
theorem handleFString_fallback (tbl : VarExprs) (p c q : Str)
    (hp : contains p "f\"".toList = false) (hc : '"' ∉ c)
    (hstart : hasPrefix (p ++ "f\"".toList ++ c ++ "\"".toList ++ q) "println!(".toList = false)
    (hform : ¬ hasAssignForm (p ++ "f\"".toList ++ c ++ "\"".toList ++ q)) :
    ∃ t vars, convertFString c = some (t, vars) ∧
      handleFString tbl (p ++ "f\"".toList ++ c ++ "\"".toList ++ q) =
        some (p ++ formatExpression t vars ++ q, tbl) := by
  refine ⟨(scan none c).1, (scan none c).2, convertFString_eq_scan c, ?_⟩
  have hp1 : ¬ "f\"".toList <:+: p := (contains_eq_false_iff _ _).mp hp
  rw [handleFString_literal tbl _ _ c (assign_nil_of_no_form _ hform)
    (findStringSubmatch_fStr p c q hp1 hc), if_neg (by rw [hstart]; decide)]
  have e : p ++ "f\"".toList ++ c ++ "\"".toList ++ q =
      p ++ 'f' :: '"' :: ((c ++ "\"".toList) ++ q) := by simp
  have e2 : "f\"".toList ++ c ++ "\"".toList = 'f' :: '"' :: (c ++ "\"".toList) := by simp
  rw [e, e2, replaceFirst_at _ _ _ p hp1]

theorem handleFString_fallback_witness :
    ∃ t vars, convertFString "Hi \x7ba\x7d".toList = some (t, vars) ∧
      handleFString VarExprs.empty
          ("say ".toList ++ "f\"".toList ++ "Hi \x7ba\x7d".toList ++ "\"".toList ++
            " and f\"\x7bb\x7d\"".toList) =
        some ("say ".toList ++ formatExpression t vars ++ " and f\"\x7bb\x7d\"".toList,
          VarExprs.empty) :=
  handleFString_fallback VarExprs.empty "say ".toList "Hi \x7ba\x7d".toList " and f\"\x7bb\x7d\"".toList
    (by decide) (by decide) (by decide) (no_form_of_no_eq _ (by decide))

/-! ## A function-open line, whatever the block state -/

theorem step_of_functionOpen (st : Driver) (line : Str)
    (hopen : functionOpen (trimSpace line) = some true) :
    ∃ name rest, split (trimSpace line) "(".toList = name :: rest ∧
      step st line =
        some ⟨st.rustCode ++ ["fn ".toList ++ name ++ "() \x7b".toList], true, st.varExprs⟩ := by
  obtain ⟨name, rest, hs⟩ := split_ne_nil (trimSpace line) "(".toList
  refine ⟨name, rest, hs, ?_⟩
  unfold step
  simp only [hopen, hs]

/-- C15 (amended). A line that satisfies the function-open test is handled by
the first case of the loop whatever the block state, also while `Inside`: the
driver writes the header `fn <name>() {`, with `<name>` the text before the
first `(`, does not call `translateLine` (the binding table stays as it is),
and the state is `Inside` afterwards. -/
theorem step_functionOpen_inside (st : Driver) (line : Str) (hin : st.inFunction = true)
    (hopen : functionOpen (trimSpace line) = some true) :
    ∃ name rest, split (trimSpace line) "(".toList = name :: rest ∧
      step st line =
        some ⟨st.rustCode ++ ["fn ".toList ++ name ++ "() \x7b".toList], st.inFunction,
          st.varExprs⟩ := by
  rw [hin]
  exact step_of_functionOpen st line hopen

theorem step_functionOpen_inside_witness :
    ∃ name rest, split (trimSpace " inner() \x7b".toList) "(".toList = name :: rest ∧
      step ⟨["fn main() \x7b".toList], true, VarExprs.empty⟩ " inner() \x7b".toList =
        some ⟨["fn main() \x7b".toList] ++ ["fn ".toList ++ name ++ "() \x7b".toList], true,
          VarExprs.empty⟩ :=
  step_functionOpen_inside ⟨["fn main() \x7b".toList], true, VarExprs.empty⟩ " inner() \x7b".toList
    rfl (by decide)

/-- C15, counterexample. While `Inside`, the function-open line `main() {` is
not written as four spaces followed by its translation `main() {`: the driver
writes the header `fn main() {`. -/
theorem step_functionOpen_not_ordinary :
    functionOpen (trimSpace "main() \x7b".toList) = some true ∧
      (translateLine VarExprs.empty "main() \x7b".toList).map Prod.fst =
        some "main() \x7b".toList ∧
      (step ⟨[], true, VarExprs.empty⟩ "main() \x7b".toList).map
          (fun d => (d.rustCode, d.inFunction)) = some (["fn main() \x7b".toList], true) ∧
      (step ⟨[], true, VarExprs.empty⟩ "main() \x7b".toList).map (fun d => d.rustCode) ≠
        some ["    ".toList ++ "main() \x7b".toList] := by
  decide

/-! ## `isAssignment` and the occurrences of the keyword -/

theorem not_infix_dropLast (sep : Str) (hsep : sep ≠ []) : ¬ sep <:+: sep.dropLast := by
  intro h
  have h1 := h.length_le
  have h2 : sep.length ≠ 0 := fun e => hsep (List.length_eq_zero.mp e)
  rw [List.length_dropLast] at h1
  omega

theorem dropLast_prefix_append (sep n e : Str) (hsep : sep ≠ []) :
    n ++ sep.dropLast <+: n ++ sep ++ e := by
  refine ⟨[sep.getLast hsep] ++ e, ?_⟩
  have := List.dropLast_append_getLast hsep
  rw [List.append_assoc, List.append_assoc, ← List.append_assoc sep.dropLast, this]

/-- If the separator starts the text `x :: n ++ sep ++ e`, it already occurs
in `x :: n ++ sep.dropLast`. -/
theorem prefix_before_first (sep n e : Str) (x : Char) (hsep : sep ≠ [])
    (h : sep <+: x :: (n ++ sep ++ e)) : sep <:+: x :: (n ++ sep.dropLast) := by
  have h2 : x :: (n ++ sep.dropLast) <+: x :: (n ++ sep ++ e) := by
    have := dropLast_prefix_append sep (x :: n) e hsep
    simpa using this
  have hl : sep.length ≤ (x :: (n ++ sep.dropLast)).length := by
    have h3 : sep.length ≠ 0 := fun e => hsep (List.length_eq_zero.mp e)
    simp only [List.length_cons, List.length_append, List.length_dropLast]
    omega
  exact (List.prefix_of_prefix_length_le h h2 hl).isInfix

/-- `Split` cuts at the first occurrence of the separator. -/
theorem splitAux_first (sep e : Str) (hsep : sep ≠ []) : ∀ (n cur : Str) (fuel : Nat),
    ¬ sep <:+: n ++ sep.dropLast →
    splitAux sep (n.length + 1 + fuel) cur (n ++ sep ++ e) =
      (cur ++ n) :: splitAux sep fuel [] e := by
  intro n
  induction n with
  | nil =>
    intro cur fuel _
    obtain ⟨c, s1, rfl⟩ := List.exists_cons_of_ne_nil hsep
    have hpre : (c :: s1).isPrefixOf (c :: (s1 ++ e)) = true := by
      rw [List.isPrefixOf_iff_prefix]; exact ⟨e, rfl⟩
    have hf : ([] : Str).length + 1 + fuel = fuel + 1 := by simp [Nat.add_comm]
    rw [hf]
    simp only [List.nil_append, List.cons_append, splitAux, List.append_eq, hpre, if_true,
      List.append_nil]
    have : c :: (s1 ++ e) = (c :: s1) ++ e := rfl
    rw [this, List.drop_left]
  | cons x n ih =>
    intro cur fuel h
    have h2 : ¬ sep <:+: n ++ sep.dropLast := fun hh => h (List.infix_cons hh)
    have hpre : sep.isPrefixOf (x :: (n ++ sep ++ e)) = false := by
      rw [Bool.eq_false_iff]
      intro hp
      exact h (prefix_before_first sep n e x hsep (List.isPrefixOf_iff_prefix.mp hp))
    have hf : (x :: n).length + 1 + fuel = (n.length + 1 + fuel) + 1 := by
      simp only [List.length_cons]; omega
    rw [hf]
    have e1 : x :: n ++ sep ++ e = x :: (n ++ sep ++ e) := rfl
    rw [e1]
    simp only [splitAux, List.append_eq, hpre, Bool.false_eq_true, if_false]
    rw [ih _ _ h2]
    simp

/-- A text that contains the separator is cut by its first occurrence. -/
theorem first_separator (sep : Str) (hsep : sep ≠ []) : ∀ s : Str, sep <:+: s →
    ∃ n e, s = n ++ sep ++ e ∧ ¬ sep <:+: n ++ sep.dropLast := by
  intro s
  induction s with
  | nil =>
    intro h
    exact absurd (List.eq_nil_of_infix_nil h) hsep
  | cons x xs ih =>
    intro h
    by_cases hp : sep <+: x :: xs
    · obtain ⟨e, he⟩ := hp
      exact ⟨[], e, by simpa using he.symm, by simpa using not_infix_dropLast sep hsep⟩
    · rcases List.infix_cons_iff.mp h with h1 | h1
      · exact absurd h1 hp
      · obtain ⟨n, e, rfl, hn⟩ := ih h1
        refine ⟨x :: n, e, rfl, ?_⟩
        intro hh
        rcases List.infix_cons_iff.mp hh with h3 | h3
        · apply hp
          have := dropLast_prefix_append sep (x :: n) e hsep
          exact h3.trans (by simpa using this)
        · exact hn h3

theorem split_first (sep n e : Str) (hsep : sep ≠ []) (h : ¬ sep <:+: n ++ sep.dropLast) :
    split (n ++ sep ++ e) sep = n :: splitAux sep (sep.length - 1 + e.length) [] e := by
  unfold split
  have hl : (n ++ sep ++ e).length = n.length + 1 + (sep.length - 1 + e.length) := by
    have h3 : sep.length ≠ 0 := fun e => hsep (List.length_eq_zero.mp e)
    simp only [List.length_append]
    omega
  rw [hl, splitAux_first sep e hsep n [] _ h]
  rfl

/-- `Split` gives exactly two parts `n` and `e` when, and only when, the text
is `n ++ sep ++ e`, no occurrence of the separator starts before that one, and
`e` holds none. -/
theorem split_pair_iff (sep s n e : Str) (hsep : sep ≠ []) :
    split s sep = [n, e] ↔
      s = n ++ sep ++ e ∧ ¬ sep <:+: n ++ sep.dropLast ∧ ¬ sep <:+: e := by
  constructor
  · intro h
    obtain ⟨hc, _⟩ := split_two s sep n e h
    obtain ⟨a, b, rfl, ha⟩ := first_separator sep hsep s ((contains_iff _ _).mp hc)
    rw [split_first sep a b hsep ha] at h
    simp only [List.cons.injEq] at h
    obtain ⟨rfl, h2⟩ := h
    have hb : ¬ sep <:+: b := by
      intro hb
      obtain ⟨a1, b1, rfl, ha1⟩ := first_separator sep hsep b hb
      have hl : sep.length - 1 + (a1 ++ sep ++ b1).length =
          a1.length + 1 + (sep.length - 1 + (sep.length - 1 + b1.length)) := by
        have h3 : sep.length ≠ 0 := fun e => hsep (List.length_eq_zero.mp e)
        simp only [List.length_append]
        omega
      rw [hl, splitAux_first sep b1 hsep a1 [] _ ha1] at h2
      simp only [List.cons.injEq] at h2
      exact splitAux_ne_nil _ _ _ _ h2.2
    rw [splitAux_of_no_occurrence sep _ [] b hb] at h2
    simp only [List.nil_append, List.cons.injEq, and_true] at h2
    subst h2
    exact ⟨rfl, ha, hb⟩
  · rintro ⟨rfl, h1, h2⟩
    rw [split_first sep n e hsep h1, splitAux_of_no_occurrence sep _ [] e h2]
    rfl

/-- C16 (amended). `isAssignment` recognises a line, and returns the texts `n`
and `e`, exactly when the line has one occurrence of ` be ` counted from left
to right without overlap: the line is `n ++ " be " ++ e`, no ` be ` starts
before that one, and `e` holds none. Every other line, in particular one
without ` be `, gives `("", "", false)`. -/
theorem isAssignment_iff (line : Str) :
    (∀ n e, (line = n ++ " be ".toList ++ e ∧ contains (n ++ " be".toList) " be ".toList = false ∧
        contains e " be ".toList = false) → isAssignment line = (n, e, true)) ∧
      ((¬ ∃ n e, line = n ++ " be ".toList ++ e ∧
          contains (n ++ " be".toList) " be ".toList = false ∧
          contains e " be ".toList = false) → isAssignment line = ([], [], false)) ∧
      (contains line " be ".toList = false → isAssignment line = ([], [], false)) := by
  have hsep : " be ".toList ≠ [] := by decide
  have hiff : ∀ n e, split line " be ".toList = [n, e] ↔
      (line = n ++ " be ".toList ++ e ∧ contains (n ++ " be".toList) " be ".toList = false ∧
        contains e " be ".toList = false) := by
    intro n e
    rw [split_pair_iff " be ".toList line n e hsep, contains_eq_false_iff,
      contains_eq_false_iff]
    rfl
  refine ⟨?_, ?_, ?_⟩
  · intro n e h
    have hs := (hiff n e).mpr h
    have hc := (split_two _ _ _ _ hs).1
    unfold isAssignment
    rw [if_pos hc, hs]
  · intro h
    unfold isAssignment
    split
    · split
      · rename_i n e heq
        exact absurd ⟨n, e, (hiff n e).mp heq⟩ h
      · rfl
    · rfl
  · intro h
    unfold isAssignment
    rw [if_neg (by rw [h]; decide)]

theorem isAssignment_iff_witness :
    isAssignment "a be be b".toList = ("a".toList, "be b".toList, true) :=
  (isAssignment_iff "a be be b".toList).1 "a".toList "be b".toList
    ⟨by decide, by decide, by decide⟩

/-- C16, counterexample. In `a be be b` the text ` be ` occurs at two
positions, which share a blank, and `isAssignment` recognises the line. -/
theorem isAssignment_overlap :
    countPositions "a be be b".toList " be ".toList = 2 ∧
      isAssignment "a be be b".toList = ("a".toList, "be b".toList, true) := by
  decide

/-! ## When `handleFString` takes the assignment branch -/

theorem isWord_of_isReSpace (c : Char) (h : isReSpace c = true) : isWord c = false := by
  rw [Bool.eq_false_iff]
  intro hw
  simp only [isWord, isReSpace, Bool.or_eq_true, Bool.and_eq_true, decide_eq_true_eq,
    beq_iff_eq] at h hw
  omega

theorem head?_append_blank (w r : Str) (c d : Char) (hw : ∀ x ∈ w, isReSpace x = true)
    (hr : r.head? = some d) (h : (w ++ r).head? = some c) : isReSpace c = true ∨ c = d := by
  cases w with
  | nil =>
    right
    rw [List.nil_append, hr] at h
    exact (Option.some.inj h).symm
  | cons x w =>
    left
    simp only [List.cons_append, List.head?_cons, Option.some.injEq] at h
    subst h
    exact hw x (by simp)

/-- The pattern `assignRe` matches at the start of the assignment form. -/
theorem matchItems_assign (a w1 w2 b r : Str) (ha : a ≠ []) (hwa : ∀ c ∈ a, isWord c = true)
    (hb : b ≠ []) (hwb : ∀ c ∈ b, isWord c = true) (hw1 : ∀ c ∈ w1, isReSpace c = true)
    (hw2 : ∀ c ∈ w2, isReSpace c = true) :
    matchItems false assignRe.items
        (a ++ (w1 ++ ("=".toList ++ (w2 ++ ("f\"\x7b".toList ++ (b ++ ("\x7d\"".toList ++ r))))))) =
      some ([a, w1, ['='], w2, ['f'], ['"'], ['{'], b, ['}'], ['"']], r) := by
  obtain ⟨x, a, rfl⟩ := List.exists_cons_of_ne_nil ha
  obtain ⟨y, b, rfl⟩ := List.exists_cons_of_ne_nil hb
  have e1 : matchItems false (lits "\x7d\"") ("\x7d\"".toList ++ r) = some ([['}'], ['"']], r) := by
    simp [matchItems, lits, lit]
  have e2 := matchItems_plus false isWord (lits "\x7d\"") y b ("\x7d\"".toList ++ r) _
    (hwb y (by simp)) (fun c hc => hwb c (by simp [hc]))
    (by intro c hc; simp at hc; subst hc; decide) e1
  have e3 := matchItems_lits false (group (plus isWord) :: lits "\x7d\"")
    (y :: b ++ ("\x7d\"".toList ++ r)) "f\"\x7b".toList
  rw [e2] at e3
  have e4 := matchItems_star false isReSpace
    ("f\"\x7b".toList.map lit ++ group (plus isWord) :: lits "\x7d\"") w2
    ("f\"\x7b".toList ++ (y :: b ++ ("\x7d\"".toList ++ r))) _ hw2
    (by intro c hc; simp at hc; subst hc; decide) e3
  have e5 := matchItems_lits false
    (star isReSpace :: ("f\"\x7b".toList.map lit ++ group (plus isWord) :: lits "\x7d\""))
    (w2 ++ ("f\"\x7b".toList ++ (y :: b ++ ("\x7d\"".toList ++ r)))) "=".toList
  rw [e4] at e5
  have e6 := matchItems_star false isReSpace
    ("=".toList.map lit ++
      star isReSpace :: ("f\"\x7b".toList.map lit ++ group (plus isWord) :: lits "\x7d\"")) w1
    ("=".toList ++ (w2 ++ ("f\"\x7b".toList ++ (y :: b ++ ("\x7d\"".toList ++ r))))) _ hw1
    (by intro c hc; simp at hc; subst hc; decide) e5
  have e7 := matchItems_plus false isWord
    (star isReSpace :: ("=".toList.map lit ++
      star isReSpace :: ("f\"\x7b".toList.map lit ++ group (plus isWord) :: lits "\x7d\""))) x a
    (w1 ++ ("=".toList ++ (w2 ++ ("f\"\x7b".toList ++ (y :: b ++ ("\x7d\"".toList ++ r)))))) _
    (hwa x (by simp)) (fun c hc => hwa c (by simp [hc]))
    (by
      intro c hc
      rcases head?_append_blank w1
        ("=".toList ++ (w2 ++ ("f\"\x7b".toList ++ (y :: b ++ ("\x7d\"".toList ++ r)))))
        c '=' hw1 rfl hc with h | h
      · exact isWord_of_isReSpace c h
      · subst h; decide) e6
  simpa [assignRe, lits] using e7

theorem search_of_match_at (re : Regex) (hb : re.bol = false) (x : Char) (xs : Str)
    (r : List Str × Str) (h : matchItems re.eol re.items (x :: xs) = some r) :
    ∀ p pre : Str, ∃ v, search re pre (p ++ x :: xs) = some v := by
  intro p
  induction p with
  | nil => intro pre; exact ⟨_, search_cons_of_match re pre x xs r h⟩
  | cons y p ih =>
    intro pre
    cases hm : matchItems re.eol re.items (y :: (p ++ x :: xs)) with
    | some v => exact ⟨_, search_cons_of_match re pre y _ v hm⟩
    | none =>
      obtain ⟨v, hv⟩ := ih []
      rw [List.cons_append, search_cons_of_no_match re pre y _ hm hb, hv]
      exact ⟨_, rfl⟩

theorem search_assign_of_form (t : Str) (h : hasAssignForm t) :
    ∃ v, search assignRe [] t = some v := by
  obtain ⟨p, a, w1, w2, b, r, ha, hwa, hb, hwb, hw1, hw2, rfl⟩ := h
  have hm := matchItems_assign a w1 w2 b r ha hwa hb hwb hw1 hw2
  obtain ⟨x, a, rfl⟩ := List.exists_cons_of_ne_nil ha
  have := search_of_match_at assignRe rfl x _ _ hm p []
  simpa using this

theorem findStringSubmatch_of_assign (t p r : Str) (sps : List Str)
    (h : search assignRe [] t = some (p, sps, r)) :
    ∃ a w1 w2 b, assignFormAt t p a w1 w2 b r ∧
      findStringSubmatch assignRe t =
        [a ++ w1 ++ "=".toList ++ w2 ++ "f\"\x7b".toList ++ b ++ "\x7d\"".toList, a, b] := by
  obtain ⟨a, w1, w2, b, h1, h2, h3, h4, h5, h6, h7, h8⟩ := assign_sound _ _ _ _ h
  refine ⟨a, w1, w2, b, ⟨h1, h2, h3, h4, h5, h6, h7⟩, ?_⟩
  simp only [findStringSubmatch, h, h8]
  simp [assignRe, lits, lit, group, plus, star, captures]

/-- The two ways of `handleFString`, the same for every binding table: either
the line holds the assignment form and the branch of lines 43-47 records the
binding, or it does not and the table is returned as it is. -/
theorem handleFString_cases (t : Str) :
    (∃ p a w1 w2 b r, assignFormAt t p a w1 w2 b r ∧ ∀ tbl : VarExprs,
      handleFString tbl t =
        some ("let ".toList ++ a ++ " = format!(\"\x7b\x7d\", ".toList ++ b ++ ");".toList,
          tbl.set a b)) ∨
    (¬ hasAssignForm t ∧ ∃ l, (¬ hasInterpolatedLiteral t → l = t) ∧
      ∀ tbl : VarExprs, handleFString tbl t = some (l, tbl)) := by
  cases hs : search assignRe [] t with
  | some v =>
    left
    obtain ⟨p, sps, r⟩ := v
    obtain ⟨a, w1, w2, b, hform, hms⟩ := findStringSubmatch_of_assign t p r sps hs
    refine ⟨p, a, w1, w2, b, r, hform, ?_⟩
    intro tbl
    unfold handleFString
    simp only [hms]
    simp
  | none =>
    right
    have hno : ¬ hasAssignForm t := by
      intro hf
      obtain ⟨v, hv⟩ := search_assign_of_form t hf
      rw [hs] at hv
      cases hv
    refine ⟨hno, ?_⟩
    have ha := findStringSubmatch_eq_nil assignRe t hs
    cases hf : search fStrRe [] t with
    | none =>
      refine ⟨t, fun _ => rfl, ?_⟩
      intro tbl
      unfold handleFString
      simp [ha, findStringSubmatch_eq_nil fStrRe t hf]
    | some v =>
      obtain ⟨p, sps, r⟩ := v
      obtain ⟨c, _, h3, h4⟩ := fStr_sound _ _ _ _ hf
      have hms : findStringSubmatch fStrRe t = ["f\"".toList ++ c ++ "\"".toList, c] := by
        simp only [findStringSubmatch, hf, h4]
        simp [fStrRe, lits, lit, group, star, captures]
      refine ⟨_, ?_, fun tbl => handleFString_literal tbl t _ c ha hms⟩
      intro hlit
      exact absurd ⟨p, c, r, h3⟩ hlit

/-- C17 (amended). `handleFString` takes the single-placeholder assignment
branch exactly for the lines that hold the form `<word> = f"{<word>}"`
somewhere, blanks around `=` optional: it records the binding of that form and
returns `let <name> = format!("{}", <inner>);`. A line that is exactly the form
is one of them. A line that does not hold the form records no binding, and is
returned as it is when it has no interpolated literal. -/
theorem handleFString_assign_branch (line : Str) :
    (hasAssignForm line → ∃ p a w1 w2 b r, assignFormAt line p a w1 w2 b r ∧
      ∀ tbl : VarExprs, handleFString tbl line =
        some ("let ".toList ++ a ++ " = format!(\"\x7b\x7d\", ".toList ++ b ++ ");".toList,
          tbl.set a b)) ∧
    (¬ hasAssignForm line → ∃ l, (¬ hasInterpolatedLiteral line → l = line) ∧
      ∀ tbl : VarExprs, handleFString tbl line = some (l, tbl)) ∧
    (∀ a b : Str, a ≠ [] → (∀ c ∈ a, isWord c = true) → b ≠ [] → (∀ c ∈ b, isWord c = true) →
      line = a ++ " = f\"\x7b".toList ++ b ++ "\x7d\"".toList →
      ∀ tbl : VarExprs, handleFString tbl line =
        some ("let ".toList ++ a ++ " = format!(\"\x7b\x7d\", ".toList ++ b ++ ");".toList,
          tbl.set a b)) := by
  refine ⟨?_, ?_, ?_⟩
  · intro hf
    rcases handleFString_cases line with h | ⟨hno, _⟩
    · exact h
    · exact absurd hf hno
  · intro hno
    rcases handleFString_cases line with ⟨p, a, w1, w2, b, r, hf, _⟩ | ⟨_, h⟩
    · exact absurd ⟨p, a, w1, w2, b, r, hf⟩ hno
    · exact h
  · intro a b ha hwa hb hwb hl tbl
    rw [hl]
    exact handleFString_assign tbl a b ha hwa hb hwb

theorem handleFString_assign_branch_witness :
    ∃ p a w1 w2 b r, assignFormAt "let x = f\"\x7bn\x7d\" + 1".toList p a w1 w2 b r ∧
      ∀ tbl : VarExprs, handleFString tbl "let x = f\"\x7bn\x7d\" + 1".toList =
        some ("let ".toList ++ a ++ " = format!(\"\x7b\x7d\", ".toList ++ b ++ ");".toList,
          tbl.set a b) :=
  (handleFString_assign_branch "let x = f\"\x7bn\x7d\" + 1".toList).1
    ⟨"let ".toList, "x".toList, " ".toList, " ".toList, "n".toList, " + 1".toList,
      by decide, by decide, by decide, by decide, by decide, by decide, by decide⟩

/-- C17, counterexample. The line `let x = f"{n}" + 1` is not exactly the
form, yet `handleFString` takes the assignment branch: it returns
`let x = format!("{}", n);` and records the binding of `x` to `n`. -/
theorem handleFString_assign_unanchored :
    (¬ ∃ a b : Str, "let x = f\"\x7bn\x7d\" + 1".toList = a ++ " = f\"\x7b".toList ++ b ++ "\x7d\"".toList) ∧
      (handleFString VarExprs.empty "let x = f\"\x7bn\x7d\" + 1".toList).map Prod.fst =
        some "let x = format!(\"\x7b\x7d\", n);".toList ∧
      (handleFString VarExprs.empty "let x = f\"\x7bn\x7d\" + 1".toList).map
          (fun r => r.2 "x".toList) = some (some "n".toList) := by
  refine ⟨?_, by decide, by decide⟩
  rintro ⟨a, b, h⟩
  have h2 := congrArg List.getLast? h
  rw [List.getLast?_append_of_ne_nil _ (by decide)] at h2
  revert h2
  decide

/-! ## The binding table -/

theorem isPrintVar_no_eq (t : Str) (h : isPrintVar t) : '=' ∉ t := by
  obtain ⟨w, _, hw, rfl⟩ := h
  intro hm
  simp only [List.mem_append] at hm
  rcases hm with (hm | hm) | hm
  · revert hm; decide
  · exact absurd (hw _ hm) (by decide)
  · revert hm; decide

theorem form_contains_fquote (t : Str) (h : hasAssignForm t) :
    contains t "f\"".toList = true := by
  obtain ⟨p, a, w1, w2, b, r, _, _, _, _, _, _, rfl⟩ := h
  rw [contains_iff]
  exact ⟨p ++ a ++ w1 ++ "=".toList ++ w2, "\x7b".toList ++ b ++ "\x7d\"".toList ++ r, by simp⟩

theorem translateLine_of_printVar (line : Str) (h : isPrintVar (trimSpace line)) :
    ∃ out, ∀ tbl : VarExprs, translateLine tbl line = some (out, tbl) := by
  obtain ⟨w, hw, hall, ht⟩ := h
  refine ⟨"println!(\"\x7b\x7d\", ".toList ++ w ++ ");".toList, ?_⟩
  intro tbl
  unfold translateLine
  simp only [ht, findStringSubmatch_printVar w hw hall]
  simp

/-- The two ways of `translateLine`, the same for every binding table: either
the trimmed line holds the assignment form and its binding is recorded, or it
does not and the table is returned as it is. The output text is the same for
every table. -/
theorem translateLine_cases (line : Str) :
    (∃ out p a w1 w2 b r, assignFormAt (trimSpace line) p a w1 w2 b r ∧
      ∀ tbl : VarExprs, translateLine tbl line = some (out, tbl.set a b)) ∨
    (¬ hasAssignForm (trimSpace line) ∧
      ∃ out, ∀ tbl : VarExprs, translateLine tbl line = some (out, tbl)) := by
  by_cases hpv : isPrintVar (trimSpace line)
  · right
    exact ⟨no_form_of_no_eq _ (isPrintVar_no_eq _ hpv), translateLine_of_printVar line hpv⟩
  · by_cases hcond : (contains (trimSpace line) "f\"".toList ||
        hasPrefix (trimSpace line) "print(f".toList) = true
    · rcases handleFString_cases (trimSpace line) with
        ⟨p, a, w1, w2, b, r, hf, h⟩ | ⟨hno, l, _, h⟩
      · left
        refine ⟨lastRules ("let ".toList ++ a ++ " = format!(\"\x7b\x7d\", ".toList ++ b ++
          ");".toList), p, a, w1, w2, b, r, hf, ?_⟩
        intro tbl
        rw [translateLine_of_not_printVar tbl line hpv, if_pos hcond, h tbl]
        rfl
      · right
        refine ⟨hno, lastRules l, ?_⟩
        intro tbl
        rw [translateLine_of_not_printVar tbl line hpv, if_pos hcond, h tbl]
        rfl
    · right
      have hc : contains (trimSpace line) "f\"".toList = false := by
        rw [Bool.or_eq_true, not_or] at hcond
        simpa using hcond.1
      refine ⟨fun hf => ?_, lastRules (trimSpace line), ?_⟩
      · have := form_contains_fquote _ hf
        rw [hc] at this
        cases this
      · intro tbl
        rw [translateLine_of_not_printVar tbl line hpv, if_neg hcond]
        rfl

/-- C19. For every line and every binding table `translateLine` returns a
table in which no entry of the old table is missing; the new table is the old
one, or the old one with the single entry `a ↦ b` written, `a` and `b` being
the words of the single-placeholder assignment form in the trimmed line; and
when the trimmed line holds no such form, in particular no `f"`, the new table
equals the old one. -/
theorem translateLine_frame (tbl : VarExprs) (line : Str) :
    ∃ out tbl1, translateLine tbl line = some (out, tbl1) ∧
      (∀ k v, tbl k = some v → ∃ v1, tbl1 k = some v1) ∧
      (tbl1 = tbl ∨ ∃ p a w1 w2 b r, assignFormAt (trimSpace line) p a w1 w2 b r ∧
        tbl1 a = some b ∧ ∀ k, k ≠ a → tbl1 k = tbl k) ∧
      (¬ hasAssignForm (trimSpace line) → tbl1 = tbl) ∧
      (contains (trimSpace line) "f\"".toList = false → tbl1 = tbl) := by
  rcases translateLine_cases line with ⟨out, p, a, w1, w2, b, r, hf, h⟩ | ⟨hno, out, h⟩
  · refine ⟨out, tbl.set a b, h tbl, ?_, ?_, ?_, ?_⟩
    · intro k v hk
      by_cases hka : k = a
      · exact ⟨b, by simp [VarExprs.set, hka]⟩
      · exact ⟨v, by simp [VarExprs.set, hka, hk]⟩
    · right
      refine ⟨p, a, w1, w2, b, r, hf, by simp [VarExprs.set], ?_⟩
      intro k hk
      simp [VarExprs.set, hk]
    · intro hno
      exact absurd ⟨p, a, w1, w2, b, r, hf⟩ hno
    · intro hc
      have := form_contains_fquote _ ⟨p, a, w1, w2, b, r, hf⟩
      rw [hc] at this
      cases this
  · exact ⟨out, tbl, h tbl, fun k v hk => ⟨v, hk⟩, Or.inl rfl, fun _ => rfl, fun _ => rfl⟩

theorem translateLine_frame_witness :
    contains (trimSpace " x be 5".toList) "f\"".toList = false ∧
      ∃ out tbl1, translateLine (VarExprs.empty.set "n".toList "m".toList) " x be 5".toList =
          some (out, tbl1) ∧
        (∀ k v, (VarExprs.empty.set "n".toList "m".toList) k = some v →
          ∃ v1, tbl1 k = some v1) ∧
        (tbl1 = VarExprs.empty.set "n".toList "m".toList ∨
          ∃ p a w1 w2 b r, assignFormAt (trimSpace " x be 5".toList) p a w1 w2 b r ∧
            tbl1 a = some b ∧
            ∀ k, k ≠ a → tbl1 k = (VarExprs.empty.set "n".toList "m".toList) k) ∧
        (¬ hasAssignForm (trimSpace " x be 5".toList) →
          tbl1 = VarExprs.empty.set "n".toList "m".toList) ∧
        (contains (trimSpace " x be 5".toList) "f\"".toList = false →
          tbl1 = VarExprs.empty.set "n".toList "m".toList) :=
  ⟨by decide, translateLine_frame (VarExprs.empty.set "n".toList "m".toList) " x be 5".toList⟩

/-- C20. The output text of `translateLine` is the same for any two binding
tables, and so are the lines written and the block state of the driver loop
run from two states that differ only in the binding table. -/
theorem translateLine_table_independent :
    (∀ (tbl1 tbl2 : VarExprs) (line : Str),
      (translateLine tbl1 line).map Prod.fst = (translateLine tbl2 line).map Prod.fst) ∧
    (∀ (tbl1 tbl2 : VarExprs) (code : List Str) (flag : Bool) (lines : List Str),
      (run ⟨code, flag, tbl1⟩ lines).map (fun d => (d.rustCode, d.inFunction)) =
        (run ⟨code, flag, tbl2⟩ lines).map (fun d => (d.rustCode, d.inFunction))) := by
  have htext : ∀ line : Str, ∃ out, ∀ tbl : VarExprs, ∃ tbl1,
      translateLine tbl line = some (out, tbl1) := by
    intro line
    rcases translateLine_cases line with ⟨out, p, a, w1, w2, b, r, _, h⟩ | ⟨_, out, h⟩
    · exact ⟨out, fun tbl => ⟨_, h tbl⟩⟩
    · exact ⟨out, fun tbl => ⟨_, h tbl⟩⟩
  have hstep : ∀ (code : List Str) (flag : Bool) (l : Str), ∃ code1 flag1,
      ∀ tbl : VarExprs, ∃ tbl1, step ⟨code, flag, tbl⟩ l = some ⟨code1, flag1, tbl1⟩ := by
    intro code flag l
    obtain ⟨out, hout⟩ := htext (trimSpace l)
    cases hfo : functionOpen (trimSpace l) with
    | none => exact absurd hfo (functionOpen_ne_none _)
    | some b =>
      cases b
      · cases flag
        · refine ⟨code ++ [out], false, fun tbl => ?_⟩
          obtain ⟨tbl1, ht⟩ := hout tbl
          refine ⟨tbl1, ?_⟩
          unfold step
          simp only [hfo, ht, Bool.false_and, Bool.false_eq_true, if_false]
        · by_cases hclose : (trimSpace l == "\x7d".toList) = true
          · refine ⟨code ++ ["\x7d".toList], false, fun tbl => ⟨tbl, ?_⟩⟩
            unfold step
            simp only [hfo, hclose, Bool.true_and, if_true]
          · refine ⟨code ++ [indent 1 ++ out], true, fun tbl => ?_⟩
            obtain ⟨tbl1, ht⟩ := hout tbl
            refine ⟨tbl1, ?_⟩
            unfold step
            simp only [hfo, hclose, ht, Bool.true_and, Bool.false_eq_true, if_false, if_true]
      · obtain ⟨name, rest, hs⟩ := split_ne_nil (trimSpace l) "(".toList
        refine ⟨code ++ ["fn ".toList ++ name ++ "() \x7b".toList], true, fun tbl => ⟨tbl, ?_⟩⟩
        unfold step
        simp only [hfo, hs]
  have hrun : ∀ (lines : List Str) (code : List Str) (flag : Bool), ∃ code1 flag1,
      ∀ tbl : VarExprs, ∃ tbl1, run ⟨code, flag, tbl⟩ lines = some ⟨code1, flag1, tbl1⟩ := by
    intro lines
    induction lines with
    | nil => intro code flag; exact ⟨code, flag, fun tbl => ⟨tbl, rfl⟩⟩
    | cons l rest ih =>
      intro code flag
      obtain ⟨code1, flag1, h1⟩ := hstep code flag l
      obtain ⟨code2, flag2, h2⟩ := ih code1 flag1
      refine ⟨code2, flag2, fun tbl => ?_⟩
      obtain ⟨tbl1, e1⟩ := h1 tbl
      obtain ⟨tbl2, e2⟩ := h2 tbl1
      exact ⟨tbl2, by simp only [run, e1, e2]⟩
  refine ⟨?_, ?_⟩
  · intro tbl1 tbl2 line
    obtain ⟨out, h⟩ := htext line
    obtain ⟨t1, e1⟩ := h tbl1
    obtain ⟨t2, e2⟩ := h tbl2
    rw [e1, e2]
    rfl
  · intro tbl1 tbl2 code flag lines
    obtain ⟨code1, flag1, h⟩ := hrun lines code flag
    obtain ⟨t1, e1⟩ := h tbl1
    obtain ⟨t2, e2⟩ := h tbl2
    rw [e1, e2]
    rfl

/-! ## The block state -/

/-- The flag after one round of the loop: set by a function-open line, cleared
by a lone `}`, kept by every other line. -/
theorem step_flag (st : Driver) (l : Str) :
    ∃ st1, step st l = some st1 ∧
      st1.inFunction = (if functionOpen (trimSpace l) = some true then true
        else if trimSpace l = "\x7d".toList then false else st.inFunction) := by
  obtain ⟨out, tbl1, ht⟩ := translateLine_total st.varExprs (trimSpace l)
  cases hfo : functionOpen (trimSpace l) with
  | none => exact absurd hfo (functionOpen_ne_none _)
  | some b =>
    cases b
    · rw [if_neg (by decide)]
      by_cases hclose : trimSpace l = "\x7d".toList
      · rw [if_pos hclose]
        by_cases hflag : st.inFunction = true
        · refine ⟨⟨st.rustCode ++ ["\x7d".toList], false, st.varExprs⟩, ?_, rfl⟩
          unfold step
          simp only [hfo]
          simp only [hflag, hclose, Bool.true_and, beq_self_eq_true, if_true]
        · refine ⟨⟨st.rustCode ++ [out], st.inFunction, tbl1⟩, ?_, ?_⟩
          · unfold step
            simp only [hfo, hflag, ht, Bool.false_and, Bool.false_eq_true, if_false]
          · simpa using hflag
      · rw [if_neg hclose]
        have hne : (trimSpace l == "\x7d".toList) = false := by
          rw [beq_eq_false_iff_ne]; exact hclose
        by_cases hflag : st.inFunction = true
        · refine ⟨⟨st.rustCode ++ [indent 1 ++ out], st.inFunction, tbl1⟩, ?_, rfl⟩
          unfold step
          simp only [hfo, hflag, hne, ht, Bool.and_false, Bool.false_eq_true, if_false, if_true]
        · refine ⟨⟨st.rustCode ++ [out], st.inFunction, tbl1⟩, ?_, rfl⟩
          unfold step
          simp only [hfo, hflag, hne, ht, Bool.and_false, Bool.false_eq_true, if_false]
    · rw [if_pos rfl]
      obtain ⟨name, rest, hs, hstep⟩ := step_of_functionOpen st l hfo
      exact ⟨_, hstep, rfl⟩

theorem openNotClosed_cons (l : Str) (rest : List Str) :
    openNotClosed (l :: rest) ↔
      (functionOpen (trimSpace l) = some true ∧ ∀ m ∈ rest, trimSpace m ≠ "\x7d".toList) ∨
        openNotClosed rest := by
  constructor
  · rintro ⟨pre, x, post, heq, hx, hpost⟩
    cases pre with
    | nil =>
      simp only [List.nil_append, List.cons.injEq] at heq
      obtain ⟨rfl, rfl⟩ := heq
      exact Or.inl ⟨hx, hpost⟩
    | cons y pre =>
      simp only [List.cons_append, List.cons.injEq] at heq
      obtain ⟨_, rfl⟩ := heq
      exact Or.inr ⟨pre, x, post, rfl, hx, hpost⟩
  · rintro (⟨hx, hpost⟩ | ⟨pre, x, post, rfl, hx, hpost⟩)
    · exact ⟨[], l, rest, rfl, hx, hpost⟩
    · exact ⟨l :: pre, x, post, rfl, hx, hpost⟩

theorem functionOpen_not_close (t : Str) (h : functionOpen t = some true) :
    t ≠ "\x7d".toList := by
  rintro rfl
  revert h
  decide

/-- The flag after the loop, from any state. -/
theorem run_flag : ∀ (lines : List Str) (st : Driver),
    ∃ st1, run st lines = some st1 ∧
      (st1.inFunction = true ↔
        openNotClosed lines ∨
          (st.inFunction = true ∧ ∀ m ∈ lines, trimSpace m ≠ "\x7d".toList)) := by
  intro lines
  induction lines with
  | nil =>
    intro st
    refine ⟨st, rfl, ?_⟩
    constructor
    · intro h
      exact Or.inr ⟨h, by simp⟩
    · rintro (⟨pre, x, post, heq, _⟩ | ⟨h, _⟩)
      · simp at heq
      · exact h
  | cons l rest ih =>
    intro st
    obtain ⟨st1, hstep, hflag⟩ := step_flag st l
    obtain ⟨st2, hrun, hiff⟩ := ih st1
    refine ⟨st2, by simp only [run, hstep, hrun], ?_⟩
    rw [hiff, openNotClosed_cons, hflag]
    by_cases hopen : functionOpen (trimSpace l) = some true
    · have hnc := functionOpen_not_close _ hopen
      simp only [hopen, if_true, true_and, List.mem_cons, forall_eq_or_imp]
      constructor
      · rintro (h | h)
        · exact Or.inl (Or.inr h)
        · exact Or.inl (Or.inl h)
      · rintro ((h | h) | ⟨_, _, h⟩)
        · exact Or.inr h
        · exact Or.inl h
        · exact Or.inr h
    · by_cases hclose : trimSpace l = "\x7d".toList
      · rw [if_neg hopen, if_pos hclose]
        constructor
        · rintro (h | ⟨hf, _⟩)
          · exact Or.inl (Or.inr h)
          · cases hf
        · rintro ((⟨ho, _⟩ | h) | ⟨_, hall⟩)
          · exact absurd ho hopen
          · exact Or.inl h
          · exact absurd hclose (hall l (List.mem_cons_self _ _))
      · rw [if_neg hopen, if_neg hclose]
        constructor
        · rintro (h | ⟨hf, hnc⟩)
          · exact Or.inl (Or.inr h)
          · refine Or.inr ⟨hf, ?_⟩
            intro m hm
            rcases List.mem_cons.mp hm with rfl | hm
            · exact hclose
            · exact hnc m hm
        · rintro ((⟨ho, _⟩ | h) | ⟨hf, hall⟩)
          · exact absurd ho hopen
          · exact Or.inl h
          · exact Or.inr ⟨hf, fun m hm => hall m (List.mem_cons_of_mem _ hm)⟩

/-- C18. After the loop has processed any finite sequence of lines from
`Outside`, the flag `inFunction` is true exactly when some line of the sequence
is a function-open line and no later line is, once trimmed, exactly `}`. -/
theorem run_flag_outside (code : List Str) (tbl : VarExprs) (lines : List Str) :
    ∃ st1, run ⟨code, false, tbl⟩ lines = some st1 ∧
      (st1.inFunction = true ↔
        ∃ pre l post, lines = pre ++ l :: post ∧ functionOpen (trimSpace l) = some true ∧
          ∀ m ∈ post, trimSpace m ≠ "\x7d".toList) := by
  obtain ⟨st1, hrun, hiff⟩ := run_flag lines ⟨code, false, tbl⟩
  refine ⟨st1, hrun, ?_⟩
  rw [hiff]
  constructor
  · rintro (h | ⟨h, _⟩)
    · exact h
    · cases h
  · intro h
    exact Or.inl h

/-! ## The lines that the scanner delivers -/

theorem byteLen_replicate_blank (n : Nat) : byteLen (List.replicate n ' ') = n := by
  induction n with
  | zero => rfl
  | succ n ih =>
    rw [List.replicate_succ, byteLen, ih, show (' ' : Char).utf8Size = 1 from by decide,
      Nat.add_comm]

theorem trimSpace_replicate_blank (n : Nat) : trimSpace (List.replicate n ' ') = [] := by
  have hall : ∀ c ∈ List.replicate n ' ', isSpace c = true := by
    intro c hc
    rw [List.eq_of_mem_replicate hc]
    decide
  have := trimSpace_pad (List.replicate n ' ') [] [] hall (by simp) (by simp) (by simp)
  rw [List.append_nil, List.append_nil] at this
  exact this

/-- A blank at the end of a line does not change the trimmed line. -/
theorem trimSpace_concat_space (m : Str) (c : Char) (hc : isSpace c = true) :
    trimSpace (m ++ [c]) = trimSpace m := by
  change ((m ++ [c]).dropWhile isSpace).rdropWhile isSpace =
    (m.dropWhile isSpace).rdropWhile isSpace
  by_cases hall : ∀ x ∈ m, isSpace x = true
  · have h1 : (m ++ [c]).dropWhile isSpace = [] := by
      rw [List.dropWhile_eq_nil_iff]
      intro x hx
      rcases List.mem_append.mp hx with h | h
      · exact hall x h
      · rw [List.mem_singleton.mp h]; exact hc
    have h2 : m.dropWhile isSpace = [] := List.dropWhile_eq_nil_iff.mpr hall
    rw [h1, h2]
  · have hne : (m.dropWhile isSpace).isEmpty = false := by
      cases hd : m.dropWhile isSpace with
      | nil => exact absurd (List.dropWhile_eq_nil_iff.mp hd) hall
      | cons y ys => rfl
    rw [List.dropWhile_append, hne]
    simp only [Bool.false_eq_true, if_false]
    exact List.rdropWhile_concat_pos _ _ _ hc

theorem trimSpace_dropCR (l : Str) : trimSpace (dropCR l) = trimSpace l := by
  unfold dropCR
  split
  · rename_i h
    have := List.dropLast_append_getLast? '\r' h
    conv_rhs => rw [← this]
    rw [trimSpace_concat_space _ '\r' (by decide)]
  · rfl

theorem step_dropCR (st : Driver) (l : Str) : step st (dropCR l) = step st l := by
  unfold step
  rw [trimSpace_dropCR]

theorem run_map_dropCR : ∀ (ls : List Str) (st : Driver),
    run st (ls.map dropCR) = run st ls := by
  intro ls
  induction ls with
  | nil => intro st; rfl
  | cons l ls ih =>
    intro st
    simp only [List.map_cons, run, step_dropCR]
    cases step st l with
    | none => rfl
    | some st1 => exact ih st1

theorem scanLines_cons_short (raw : Str) (rest : List Str)
    (h : byteLen raw < maxScanTokenSize) :
    scanLines (raw :: rest) = dropCR raw :: scanLines rest := by
  rw [scanLines, if_pos h]

theorem scanLines_cons_long (raw : Str) (rest : List Str)
    (h : ¬ byteLen raw < maxScanTokenSize) : scanLines (raw :: rest) = [] := by
  rw [scanLines, if_neg h]

theorem scanLines_of_short : ∀ ls : List Str, (∀ l ∈ ls, byteLen l < maxScanTokenSize) →
    scanLines ls = ls.map dropCR := by
  intro ls
  induction ls with
  | nil => intro _; rfl
  | cons l ls ih =>
    intro h
    rw [scanLines_cons_short l ls (h l (by simp)), ih (fun x hx => h x (by simp [hx]))]
    rfl

/-- When every raw line is shorter than the buffer limit, the loop runs over
all of them. -/
theorem runInput_of_short (st : Driver) (ls : List Str)
    (h : ∀ l ∈ ls, byteLen l < maxScanTokenSize) : runInput st ls = run st ls := by
  unfold runInput
  rw [scanLines_of_short ls h, run_map_dropCR]

/-- C4 (amended). For a function name `f` without white space and without `(`,
and body lines none of which is, once trimmed, a function-open line or a lone
`}`, when the header line and every body line are shorter than the scanner's
limit of 65536 bytes, the loop run from `Outside` on the input `f() {`, the
body and `}` writes `fn f() {`, every body line translated by `translateLine`
and indented by four spaces, and `}`, and ends `Outside`. -/
theorem runInput_function_block (tbl : VarExprs) (f : Str) (body : List Str)
    (hf : ∀ c ∈ f, isSpace c = false) (hp : '(' ∉ f)
    (hbody : ∀ l ∈ body, functionOpen (trimSpace l) = some false ∧ trimSpace l ≠ "\x7d".toList)
    (hflen : byteLen (f ++ "() \x7b".toList) < maxScanTokenSize)
    (hblen : ∀ l ∈ body, byteLen l < maxScanTokenSize) :
    ∃ outs tbl1, translateLines tbl body = some (outs, tbl1) ∧
      runInput ⟨[], false, tbl⟩ ([f ++ "() \x7b".toList] ++ body ++ ["\x7d".toList]) =
        some ⟨["fn ".toList ++ f ++ "() \x7b".toList] ++
          outs.map (fun o => "    ".toList ++ o) ++ ["\x7d".toList], false, tbl1⟩ := by
  have hshort : ∀ l ∈ [f ++ "() \x7b".toList] ++ body ++ ["\x7d".toList],
      byteLen l < maxScanTokenSize := by
    intro l hl
    simp only [List.mem_append, List.mem_singleton] at hl
    rcases hl with (hl | hl) | hl
    · rw [hl]; exact hflen
    · exact hblen l hl
    · rw [hl]; decide
  rw [runInput_of_short _ _ hshort]
  exact run_function_block tbl f body hf hp hbody

theorem runInput_function_block_witness :
    ∃ outs tbl1, translateLines VarExprs.empty ["x be 1\r".toList] = some (outs, tbl1) ∧
      runInput ⟨[], false, VarExprs.empty⟩
          (["main".toList ++ "() \x7b".toList] ++ ["x be 1\r".toList] ++ ["\x7d".toList]) =
        some ⟨["fn ".toList ++ "main".toList ++ "() \x7b".toList] ++
          outs.map (fun o => "    ".toList ++ o) ++ ["\x7d".toList], false, tbl1⟩ :=
  runInput_function_block VarExprs.empty "main".toList ["x be 1\r".toList] (by decide)
    (by decide) (by decide) (by decide) (by decide)

/-- C4, counterexample. The function name `main` and the body of one line of
65536 blanks meet the conditions of the claim: the trimmed body line is empty,
so it is neither a function-open line nor a lone `}`, and its translation is the
empty text. The scanner does not deliver a line of 65536 bytes and the loop
ends there: only `fn main() {` is written and the state is `Inside`, where the
claim has three lines and `Outside`. -/
theorem runInput_long_line :
    (∀ c ∈ "main".toList, isSpace c = false) ∧ '(' ∉ "main".toList ∧
      (∀ l ∈ [List.replicate maxScanTokenSize ' '],
        functionOpen (trimSpace l) = some false ∧ trimSpace l ≠ "\x7d".toList) ∧
      byteLen (List.replicate maxScanTokenSize ' ') = 65536 ∧
      (translateLine VarExprs.empty (List.replicate maxScanTokenSize ' ')).map Prod.fst =
        some [] ∧
      (runInput ⟨[], false, VarExprs.empty⟩
          (["main".toList ++ "() \x7b".toList] ++ [List.replicate maxScanTokenSize ' '] ++
            ["\x7d".toList])).map (fun d => (d.rustCode, d.inFunction)) =
        some (["fn main() \x7b".toList], true) ∧
      (runInput ⟨[], false, VarExprs.empty⟩
          (["main".toList ++ "() \x7b".toList] ++ [List.replicate maxScanTokenSize ' '] ++
            ["\x7d".toList])).map (fun d => (d.rustCode, d.inFunction)) ≠
        some (["fn main() \x7b".toList, "    ".toList ++ [], "\x7d".toList], false) := by
  have hrun : (runInput ⟨[], false, VarExprs.empty⟩
      (["main".toList ++ "() \x7b".toList] ++ [List.replicate maxScanTokenSize ' '] ++
        ["\x7d".toList])).map (fun d => (d.rustCode, d.inFunction)) =
      some (["fn main() \x7b".toList], true) := by
    have e : ["main".toList ++ "() \x7b".toList] ++ [List.replicate maxScanTokenSize ' '] ++
        ["\x7d".toList] =
        ("main".toList ++ "() \x7b".toList) ::
          List.replicate maxScanTokenSize ' ' :: ["\x7d".toList] := rfl
    have hlong : ¬ byteLen (List.replicate maxScanTokenSize ' ') < maxScanTokenSize := by
      rw [byteLen_replicate_blank]
      exact Nat.lt_irrefl _
    unfold runInput
    rw [e, scanLines_cons_short _ _ (by decide), scanLines_cons_long _ _ hlong]
    decide
  refine ⟨by decide, by decide, ?_, ?_, ?_, hrun, ?_⟩
  · intro l hl
    rw [List.mem_singleton.mp hl, trimSpace_replicate_blank]
    decide
  · rw [byteLen_replicate_blank]
    rfl
  · rw [← translateLine_trim, trimSpace_replicate_blank]
    decide
  · rw [hrun]
    decide

end Krypton
